import Mathlib

/-!
Verification development for the ClaudeCreditBurner task-execution engine.

The TypeScript sources are shallowly embedded as executable Lean
definitions: JS numbers become rationals, `Date.now()` becomes an explicit
time argument, JS `Map`/`Set` become association lists / duplicate-free
lists in insertion order, and the stateful classes become explicit state
passing.  The theorems at the end of the file settle the specification
claims against these definitions.
-/

set_option linter.unusedVariables false

namespace CCB

/-! ## Token bucket (src/rate-limit/token-bucket.ts)

State of a `TokenBucket` object.  `refillRate` is in tokens per
millisecond, `lastRefill` is a millisecond timestamp.  Every method that
calls `Date.now()` takes the current time as an explicit argument. -/

structure TokenBucket where
  capacity : ℚ
  refillRate : ℚ
  tokens : ℚ
  lastRefill : ℚ
  deriving DecidableEq, Repr

namespace TokenBucket

/-- `new TokenBucket(capacity, refillRatePerMinute)` at time `now`. -/
def init (capacity refillRatePerMinute now : ℚ) : TokenBucket :=
  { capacity := capacity
    tokens := capacity
    refillRate := refillRatePerMinute / 60000
    lastRefill := now }

/-- `refill()`: `tokens = min(capacity, tokens + elapsed * refillRate)`. -/
def refill (b : TokenBucket) (now : ℚ) : TokenBucket :=
  { b with
    tokens := min b.capacity (b.tokens + (now - b.lastRefill) * b.refillRate)
    lastRefill := now }

/-- `tryConsume(count)`: refill, then subtract `count` and return `true`
iff the refilled token count is at least `count`. -/
def tryConsume (b : TokenBucket) (count now : ℚ) : Bool × TokenBucket :=
  let b' := b.refill now
  if count ≤ b'.tokens then (true, { b' with tokens := b'.tokens - count })
  else (false, b')

/-- `getWaitTime(count)`: refill, return 0 if sufficient, else
`Math.ceil(deficit / refillRate)`. -/
def getWaitTime (b : TokenBucket) (count now : ℚ) : ℚ × TokenBucket :=
  let b' := b.refill now
  if count ≤ b'.tokens then (0, b')
  else (((⌈(count - b'.tokens) / b.refillRate⌉ : ℤ) : ℚ), b')

/-- `getAvailable()`: refill and return the token count. -/
def getAvailable (b : TokenBucket) (now : ℚ) : ℚ × TokenBucket :=
  let b' := b.refill now
  (b'.tokens, b')

/-- `getFillPercentage()`. -/
def getFillPercentage (b : TokenBucket) (now : ℚ) : ℚ × TokenBucket :=
  let b' := b.refill now
  (b'.tokens / b'.capacity * 100, b')

/-- `setTokens(count)`: `tokens = min(capacity, max(0, count))`. -/
def setTokens (b : TokenBucket) (count now : ℚ) : TokenBucket :=
  { b with tokens := min b.capacity (max 0 count), lastRefill := now }

/-- `reset()`: back to full capacity. -/
def reset (b : TokenBucket) (now : ℚ) : TokenBucket :=
  { b with tokens := b.capacity, lastRefill := now }

/-- The token count an untouched bucket would show when next accessed at
time `t` (lazy refill). -/
def tokensAt (b : TokenBucket) (t : ℚ) : ℚ := (b.refill t).tokens

end TokenBucket

/-- One externally invokable bucket operation, tagged with the time at
which it is invoked. -/
inductive BucketOp where
  | tryConsume (count now : ℚ)
  | getWaitTime (count now : ℚ)
  | getAvailable (now : ℚ)
  | getFillPercentage (now : ℚ)
  | setTokens (count now : ℚ)
  | reset (now : ℚ)
  deriving DecidableEq, Repr

/-- State effect of a bucket operation. -/
def applyOp (b : TokenBucket) : BucketOp → TokenBucket
  | .tryConsume c t => (b.tryConsume c t).2
  | .getWaitTime c t => (b.getWaitTime c t).2
  | .getAvailable t => (b.getAvailable t).2
  | .getFillPercentage t => (b.getFillPercentage t).2
  | .setTokens c t => b.setTokens c t
  | .reset t => b.reset t

/-- State effect of a whole operation sequence. -/
def applyOps (b : TokenBucket) (ops : List BucketOp) : TokenBucket :=
  ops.foldl applyOp b

/-- The invocation time of an operation. -/
def BucketOp.time : BucketOp → ℚ
  | .tryConsume _ t => t
  | .getWaitTime _ t => t
  | .getAvailable t => t
  | .getFillPercentage t => t
  | .setTokens _ t => t
  | .reset t => t

/-- Consume arguments must be non-negative; `setTokens` takes an
arbitrary argument. -/
def BucketOp.argOk : BucketOp → Prop
  | .tryConsume c _ => 0 ≤ c
  | _ => True

instance : DecidablePred BucketOp.argOk := by
  intro op
  cases op <;> unfold BucketOp.argOk <;> infer_instance

/-- The token-count invariant: the bucket holds between 0 and capacity
tokens. -/
def BInv (b : TokenBucket) : Prop := 0 ≤ b.tokens ∧ b.tokens ≤ b.capacity

instance : DecidablePred BInv := by
  intro b
  unfold BInv
  infer_instance

/-! ## Rate limit manager (src/rate-limit/manager.ts)

The three buckets keyed by resource dimension, plus the request counter.
The backoff object and usage counters do not participate in the claims
about `acquirePermit` and are omitted. -/

structure RateLimitManager where
  rpmBucket : TokenBucket
  itpmBucket : TokenBucket
  otpmBucket : TokenBucket
  requestCount : ℕ
  deriving DecidableEq, Repr

/-- Which bucket caused a wait inside `acquirePermit`. -/
inductive WaitReason where
  | rpm | itpm | otpm
  deriving DecidableEq, Repr

/-- Outcome of one iteration of the `acquirePermit` `while` loop: either
the permit is granted, or the loop is about to `sleep(waitTime)` with the
given reason and state. -/
inductive AttemptResult where
  | granted : RateLimitManager → AttemptResult
  | wait : WaitReason → ℚ → RateLimitManager → AttemptResult
  deriving DecidableEq, Repr

/-- One iteration of the `while (true)` loop of `acquirePermit`.  The
`i`-th call to `Date.now()` inside the iteration returns `clk i`. -/
def acquireAttempt (clk : ℕ → ℚ) (estIn estOut : ℚ) (m : RateLimitManager) : AttemptResult :=
  match m.rpmBucket.tryConsume 1 (clk 0) with
  | (false, rpm1) =>
      let w := (rpm1.getWaitTime 1 (clk 1)).1
      let rpm2 := (rpm1.getWaitTime 1 (clk 1)).2
      .wait .rpm w { m with rpmBucket := rpm2 }
  | (true, rpm1) =>
      match m.itpmBucket.tryConsume estIn (clk 1) with
      | (false, itpm1) =>
          let a := (rpm1.getAvailable (clk 2)).1
          let rpm2 := (rpm1.getAvailable (clk 2)).2
          let rpm3 := rpm2.setTokens (a + 1) (clk 3)
          let w := (itpm1.getWaitTime estIn (clk 4)).1
          let itpm2 := (itpm1.getWaitTime estIn (clk 4)).2
          .wait .itpm w { m with rpmBucket := rpm3, itpmBucket := itpm2 }
      | (true, itpm1) =>
          if 0 < estOut then
            match m.otpmBucket.tryConsume estOut (clk 2) with
            | (false, otpm1) =>
                let a := (rpm1.getAvailable (clk 3)).1
                let rpm2 := (rpm1.getAvailable (clk 3)).2
                let rpm3 := rpm2.setTokens (a + 1) (clk 4)
                let ai := (itpm1.getAvailable (clk 5)).1
                let itpm2 := (itpm1.getAvailable (clk 5)).2
                let itpm3 := itpm2.setTokens (ai + estIn) (clk 6)
                let w := (otpm1.getWaitTime estOut (clk 7)).1
                let otpm2 := (otpm1.getWaitTime estOut (clk 7)).2
                .wait .otpm w
                  { rpmBucket := rpm3, itpmBucket := itpm3, otpmBucket := otpm2,
                    requestCount := m.requestCount }
            | (true, otpm1) =>
                .granted
                  { rpmBucket := rpm1, itpmBucket := itpm1, otpmBucket := otpm1,
                    requestCount := m.requestCount + 1 }
          else
            .granted
              { m with rpmBucket := rpm1, itpmBucket := itpm1,
                       requestCount := m.requestCount + 1 }

/-- The `acquirePermit` retry loop, with fuel bounding the number of
iterations we observe; `none` means the loop has not returned within
`fuel` iterations.  `clks k` is the clock stream of the iteration taken
when `fuel = k + 1`. -/
def acquirePermit (clks : ℕ → ℕ → ℚ) (estIn estOut : ℚ) :
    ℕ → RateLimitManager → Option RateLimitManager
  | 0, _ => none
  | fuel + 1, m =>
      match acquireAttempt (clks fuel) estIn estOut m with
      | .granted m' => some m'
      | .wait _ _ m' => acquirePermit clks estIn estOut fuel m'

/-! ## JS collections

`Map` is modelled as an association list in insertion order (`set` on an
existing key updates in place, otherwise appends), `Set` as a
duplicate-free list in insertion order. -/

/-- `Map.get`. -/
def mapGet {α : Type} (m : List (String × α)) (k : String) : Option α :=
  (m.find? (fun p => p.1 == k)).map Prod.snd

/-- `Map.set`. -/
def mapSet {α : Type} (m : List (String × α)) (k : String) (v : α) : List (String × α) :=
  match m with
  | [] => [(k, v)]
  | (k', v') :: rest => if k' == k then (k, v) :: rest else (k', v') :: mapSet rest k v

/-- `Map.has`. -/
def mapHas {α : Type} (m : List (String × α)) (k : String) : Bool :=
  (mapGet m k).isSome

/-- In-place mutation of the value object stored under an existing key
(a no-op when the key is absent). -/
def mapUpdate {α : Type} (m : List (String × α)) (k : String) (f : α → α) : List (String × α) :=
  match m with
  | [] => []
  | (k', v') :: rest => if k' == k then (k', f v') :: rest else (k', v') :: mapUpdate rest k f

/-- `Set.add`. -/
def setAdd (s : List String) (x : String) : List String :=
  if s.contains x then s else s ++ [x]

/-- `new Set(array)`. -/
def setFromList (l : List String) : List String :=
  l.foldl setAdd []

/-! ## Task graph (src/core/task-graph.ts) -/

/-- Per-node status. -/
inductive TStatus where
  | pending | ready | executing | completed | failed | blocked
  deriving DecidableEq, Repr

/-- `TaskNode`. -/
structure TaskNode where
  taskId : String
  dependencies : List String
  dependents : List String
  status : TStatus
  deriving DecidableEq, Repr

/-- The fields of a `Task` that the scheduling core reads. -/
structure Task where
  id : String
  title : String
  priority : Int
  dependencies : List String
  estimatedTokens : Option ℕ
  deriving DecidableEq, Repr

/-- `TaskGraph` state. -/
structure TaskGraph where
  nodes : List (String × TaskNode)
  taskData : List (String × Task)
  deriving DecidableEq, Repr

/-- `new TaskGraph()`. -/
def TaskGraph.empty : TaskGraph := { nodes := [], taskData := [] }

/-- A node created for an id not seen before. -/
def freshNode (id : String) : TaskNode :=
  { taskId := id, dependencies := [], dependents := [], status := .pending }

/-- The placeholder/reverse-edge part of one iteration of the dependency
loop in `addTask`: ensure the dependency's node exists and record the
reverse edge. -/
def wireDependent (nodes : List (String × TaskNode)) (tid dep : String) :
    List (String × TaskNode) :=
  let nodes1 := if mapHas nodes dep then nodes else mapSet nodes dep (freshNode dep)
  mapUpdate nodes1 dep (fun n => { n with dependents := setAdd n.dependents tid })

/-- `addTask(task)`.  When the node already exists the JS code mutates
the object stored in the map, so dependency additions are immediately
visible through the map; when it is fresh, the local node object is only
inserted after the dependency loop. -/
def addTask (g : TaskGraph) (t : Task) : TaskGraph :=
  let taskData := mapSet g.taskData t.id t
  if mapHas g.nodes t.id then
    let nodes := t.dependencies.foldl
      (fun ns dep =>
        let ns1 := mapUpdate ns t.id (fun n => { n with dependencies := setAdd n.dependencies dep })
        wireDependent ns1 t.id dep)
      g.nodes
    { nodes := nodes, taskData := taskData }
  else
    let p := t.dependencies.foldl
      (fun (p : TaskNode × List (String × TaskNode)) dep =>
        ({ p.1 with dependencies := setAdd p.1.dependencies dep }, wireDependent p.2 t.id dep))
      (freshNode t.id, g.nodes)
    { nodes := mapSet p.2 t.id p.1, taskData := taskData }

/-- `getTask(taskId)`. -/
def getTask (g : TaskGraph) (taskId : String) : Option Task :=
  mapGet g.taskData taskId

/-- The status a node currently has (`none` when the id is unknown). -/
def statusOf (g : TaskGraph) (taskId : String) : Option TStatus :=
  (mapGet g.nodes taskId).map TaskNode.status

/-- Overwrite the status of an existing node (no-op when absent): the
common body of `markCompleted` / `markFailed` / `markExecuting` and of
the blocking propagation. -/
def setStatus (g : TaskGraph) (taskId : String) (s : TStatus) : TaskGraph :=
  { g with nodes := mapUpdate g.nodes taskId (fun n => { n with status := s }) }

/-- `markCompleted(taskId)`. -/
def markCompleted (g : TaskGraph) (taskId : String) : TaskGraph :=
  setStatus g taskId .completed

/-- `markFailed(taskId)`. -/
def markFailed (g : TaskGraph) (taskId : String) : TaskGraph :=
  setStatus g taskId .failed

/-- `markExecuting(taskId)`. -/
def markExecuting (g : TaskGraph) (taskId : String) : TaskGraph :=
  setStatus g taskId .executing

/-- Number of map entries currently in `pending` status (used as fuel for
the blocking propagation, which flips one pending node per recursive
call). -/
def pendingCount (g : TaskGraph) : ℕ :=
  (g.nodes.filter (fun p => p.2.status == TStatus.pending)).length

/-- The `for (const dependentId of node.dependents)` loop inside
`propagateBlocked`; the recursive `propagateBlocked(dependentId)` call
is passed in as `pb`. -/
def propagateDeps (pb : TaskGraph → String → List String → TaskGraph × List String) :
    TaskGraph → List String → List String → TaskGraph × List String
  | g, [], acc => (g, acc)
  | g, depId :: rest, acc =>
      match mapGet g.nodes depId with
      | some dn =>
          if dn.status = .pending then
            let g1 := setStatus g depId .blocked
            let r := pb g1 depId (acc ++ [depId])
            propagateDeps pb r.1 rest r.2
          else propagateDeps pb g rest acc
      | none => propagateDeps pb g rest acc

/-- `propagateBlocked(failedId)` from `markBlockedTasks`, with fuel. -/
def propagateBlocked : ℕ → TaskGraph → String → List String → TaskGraph × List String
  | 0, g, _, acc => (g, acc)
  | fuel + 1, g, failedId, acc =>
      match mapGet g.nodes failedId with
      | none => (g, acc)
      | some node => propagateDeps (propagateBlocked fuel) g node.dependents acc

/-- `markBlockedTasks(failedTasks)`: propagate from every failed id; the
fuel `pendingCount + 1` is always sufficient because every recursive call
is preceded by flipping one pending node to blocked. -/
def markBlockedTasks (g : TaskGraph) (failedTasks : List String) : TaskGraph × List String :=
  failedTasks.foldl
    (fun (p : TaskGraph × List String) failedId =>
      propagateBlocked (pendingCount p.1 + 1) p.1 failedId p.2)
    (g, [])

/-- `getReadyTasks(completedTasks)`. -/
def getReadyTasks (g : TaskGraph) (completedTasks : List String) : List String :=
  (g.nodes.filter (fun p =>
    !(completedTasks.contains p.1) && p.2.status == TStatus.pending
      && p.2.dependencies.all (fun d => completedTasks.contains d))).map Prod.fst

/-- `taskData.get(id)?.priority || 0`. -/
def priorityOf (g : TaskGraph) (taskId : String) : Int :=
  ((mapGet g.taskData taskId).map Task.priority).getD 0

/-- Stable insertion into a list already sorted by descending priority:
the new element goes before the first strictly lower-priority element,
i.e. after every earlier element of equal priority. -/
def insertByPriority (g : TaskGraph) (x : String) : List String → List String
  | [] => [x]
  | y :: ys =>
      if priorityOf g x < priorityOf g y then y :: insertByPriority g x ys
      else x :: y :: ys

/-- The stable `sort((a, b) => priorityB - priorityA)` of
`getParallelCandidates`, as a stable insertion sort by descending
priority. -/
def sortByPriorityDesc (g : TaskGraph) : List String → List String
  | [] => []
  | x :: xs => insertByPriority g x (sortByPriorityDesc g xs)

/-- `getParallelCandidates(readyTasks, maxParallel)`: stable sort by
descending priority, then truncate. -/
def getParallelCandidates (g : TaskGraph) (readyTasks : List String) (maxParallel : ℕ) :
    List String :=
  (sortByPriorityDesc g readyTasks).take maxParallel

/-- `isComplete()`. -/
def isComplete (g : TaskGraph) : Bool :=
  g.nodes.all (fun p =>
    p.2.status != TStatus.pending && p.2.status != TStatus.executing
      && p.2.status != TStatus.ready)

/-- One entry of `getStatusCounts()`. -/
def statusCount (g : TaskGraph) (s : TStatus) : ℕ :=
  (g.nodes.filter (fun p => p.2.status == s)).length

/-- The queue-processing loop of `topologicalSort` (Kahn's algorithm),
with fuel; the in-degree table is over `ℤ` because the JS counter can be
decremented below zero. -/
def topoLoop (g : TaskGraph) : ℕ → List (String × ℤ) → List String → List String → List String
  | _, _, [], result => result
  | 0, _, _, result => result
  | fuel + 1, inDeg, nodeId :: queue, result =>
      let result' := result ++ [nodeId]
      match mapGet g.nodes nodeId with
      | none => topoLoop g fuel inDeg queue result'
      | some node =>
          let p := node.dependents.foldl
            (fun (p : List (String × ℤ) × List String) dependentId =>
              let newDegree := ((mapGet p.1 dependentId).getD 0) - 1
              let inDeg2 := mapSet p.1 dependentId newDegree
              if newDegree == 0 then (inDeg2, p.2 ++ [dependentId]) else (inDeg2, p.2))
            (inDeg, queue)
          topoLoop g fuel p.1 p.2 result'

/-- `topologicalSort()`: in-degree counting with a ready-queue.  Fuel
`nodes.length + 1` is always sufficient because each id is enqueued at
most once. -/
def topologicalSort (g : TaskGraph) : List String :=
  let inDeg := g.nodes.map (fun p => (p.1, (p.2.dependencies.length : ℤ)))
  let queue := (g.nodes.filter (fun p => p.2.dependencies.length == 0)).map Prod.fst
  topoLoop g (g.nodes.length + 1) inDeg queue []

/-! ## Execution state and checkpoints (src/state/checkpoint.ts) -/

/-- `ExecutionError`. -/
structure ExecutionError where
  code : String
  message : String
  retryable : Bool
  deriving DecidableEq, Repr

/-- `TokenUsage`. -/
structure TokenUsage where
  input : ℕ
  output : ℕ
  total : ℕ
  deriving DecidableEq, Repr

/-- `ExecutionState`: sets and maps are in-memory JS collections. -/
structure ExecutionState where
  checkpointId : String
  timestamp : ℚ
  completedTasks : List String
  failedTasks : List (String × ExecutionError)
  inProgressTasks : List String
  totalTokensUsed : ℕ
  executionTimeMs : ℚ
  deriving DecidableEq, Repr

/-- `CheckpointData`: the serialized record (sets/maps as arrays). -/
structure CheckpointData where
  checkpointId : String
  timestamp : ℚ
  completedTasks : List String
  failedTasks : List (String × ExecutionError)
  inProgressTasks : List String
  totalTokensUsed : ℕ
  executionTimeMs : ℚ
  deriving DecidableEq, Repr

/-- `stateToData(state)`: `Array.from` on the sets and map entries. -/
def stateToData (s : ExecutionState) : CheckpointData :=
  { checkpointId := s.checkpointId
    timestamp := s.timestamp
    completedTasks := s.completedTasks
    failedTasks := s.failedTasks
    inProgressTasks := s.inProgressTasks
    totalTokensUsed := s.totalTokensUsed
    executionTimeMs := s.executionTimeMs }

/-- Rebuild a `Map` from serialized entries (`map.set` in a loop). -/
def mapFromList (l : List (String × ExecutionError)) : List (String × ExecutionError) :=
  l.foldl (fun m p => mapSet m p.1 p.2) []

/-- `dataToState(data)`: `new Set` / rebuilt `Map` from the arrays. -/
def dataToState (d : CheckpointData) : ExecutionState :=
  { checkpointId := d.checkpointId
    timestamp := d.timestamp
    completedTasks := setFromList d.completedTasks
    failedTasks := mapFromList d.failedTasks
    inProgressTasks := setFromList d.inProgressTasks
    totalTokensUsed := d.totalTokensUsed
    executionTimeMs := d.executionTimeMs }

/-- `getCheckpointPath(checkpointId)`. -/
def getCheckpointPath (checkpointId : String) : String :=
  "data/checkpoints/checkpoint-" ++ checkpointId ++ ".json"

/-- The checkpoint directory: file path to parsed content.  The atomic
temp-file write and JSON encoding are below this model's level. -/
def CheckpointStore : Type := List (String × CheckpointData)

/-- `saveCheckpoint(state)`: reuse `state.checkpointId` when set
(JS truthiness: the empty string counts as unset, in which case the
generated `freshId` is used), write the record over the final path, and
return the store together with the state carrying the definite id. -/
def saveCheckpoint (store : CheckpointStore) (s : ExecutionState) (freshId : String) :
    CheckpointStore × ExecutionState :=
  let checkpointId := if s.checkpointId = "" then freshId else s.checkpointId
  let s' := { s with checkpointId := checkpointId }
  (mapSet store (getCheckpointPath checkpointId) (stateToData s'), s')

/-- `loadCheckpoint(checkpointId)`: `none` on a missing file. -/
def loadCheckpoint (store : CheckpointStore) (checkpointId : String) : Option ExecutionState :=
  (mapGet store (getCheckpointPath checkpointId)).map dataToState

/-! ## Orchestrator main loop (src/main.ts, `executeTaskLoop`)

The external executor is abstracted as an oracle from task id and
attempt number to an outcome; the rate limiter's internal waits are
below this model's level (a permit is eventually granted), but every
`acquirePermit` / `handle429Error` invocation is recorded in the event
trace. -/

/-- `ExecutionResult` (the fields the loop reads). -/
structure ExecutionResult where
  taskId : String
  success : Bool
  error : Option ExecutionError
  tokensUsed : TokenUsage
  deriving DecidableEq, Repr

/-- What one call of `executor.executeTask` does: return a result or
throw. -/
inductive ExecOutcome where
  | ok (result : ExecutionResult)
  | thrown (msg : String)
  deriving DecidableEq, Repr

/-- Observable events of the main loop. -/
inductive LoopEvent where
  | permit (taskId : String) (attempt : ℕ)
  | execute (taskId : String) (attempt : ℕ)
  | backoff (taskId : String) (attempt : ℕ)
  | checkpoint (batch : List String) (data : CheckpointData)
  deriving DecidableEq, Repr

/-- Does a result carry a retryable error (`result.error?.retryable`)? -/
def errRetryable (r : ExecutionResult) : Bool :=
  match r.error with
  | some e => e.retryable
  | none => false

/-- The `for (let attempt = 0; ...)` body of `executeWithRetry`,
structurally recursing on the remaining attempts
(`attempt = maxRetries - remaining`). -/
def retryGo (exec : String → ℕ → ExecOutcome) (task : Task) (maxRetries : ℕ) :
    ℕ → Option String → ExecutionResult × List LoopEvent
  | 0, lastError =>
      ({ taskId := task.id
         success := false
         error := some
           { code := "EXECUTION_ERROR"
             message := lastError.getD "Unknown error after retries"
             retryable := false }
         tokensUsed := ⟨0, 0, 0⟩ }, [])
  | remaining + 1, lastError =>
      let attempt := maxRetries - (remaining + 1)
      let evs0 : List LoopEvent := [.permit task.id attempt, .execute task.id attempt]
      match exec task.id attempt with
      | .ok result =>
          if result.success = false ∧ errRetryable result = true ∧ 0 < remaining then
            let r := retryGo exec task maxRetries remaining lastError
            (r.1, evs0 ++ [.backoff task.id attempt] ++ r.2)
          else (result, evs0)
      | .thrown msg =>
          let r := retryGo exec task maxRetries remaining (some msg)
          if 0 < remaining then (r.1, evs0 ++ [.backoff task.id attempt] ++ r.2)
          else (r.1, evs0 ++ r.2)

/-- `executeWithRetry(task, maxRetries = 3)`. -/
def executeWithRetry (exec : String → ℕ → ExecOutcome) (maxRetries : ℕ) (task : Task) :
    ExecutionResult × List LoopEvent :=
  retryGo exec task maxRetries maxRetries none

/-- Reconciliation of one settled batch result (the body of the
`for (let i = 0; ...)` loop over `batchTasks`). -/
def reconcileResult (st : ExecutionState) (g : TaskGraph) (task : Task)
    (result : ExecutionResult) : ExecutionState × TaskGraph :=
  if result.success then
    let st := { st with completedTasks := setAdd st.completedTasks task.id }
    let g := markCompleted g task.id
    let st := { st with inProgressTasks := st.inProgressTasks.erase task.id
                        totalTokensUsed := st.totalTokensUsed + result.tokensUsed.total }
    (st, g)
  else
    let st := { st with
      failedTasks := mapSet st.failedTasks task.id
        (result.error.getD { code := "", message := "", retryable := false }) }
    let g := markFailed g task.id
    let g := (markBlockedTasks g [task.id]).1
    let st := { st with inProgressTasks := st.inProgressTasks.erase task.id
                        totalTokensUsed := st.totalTokensUsed + result.tokensUsed.total }
    (st, g)

/-- Execute and reconcile one batch, then save the per-batch checkpoint:
the `Promise.allSettled` dispatch, the result-processing loop and the
final `saveCheckpoint` of one `while` iteration. -/
def runBatch (exec : String → ℕ → ExecOutcome) (maxRetries : ℕ) (st : ExecutionState)
    (g : TaskGraph) (batchTasks : List Task) :
    ExecutionState × TaskGraph × List LoopEvent :=
  let settled := batchTasks.map (fun t => (t, executeWithRetry exec maxRetries t))
  let execEvents := (settled.map (fun p => p.2.2)).flatten
  let reconciled := settled.foldl
    (fun (acc : ExecutionState × TaskGraph) p => reconcileResult acc.1 acc.2 p.1 p.2.1)
    (st, g)
  let cp := stateToData reconciled.1
  (reconciled.1, reconciled.2,
    execEvents ++ [.checkpoint (batchTasks.map Task.id) cp])

/-- The `while (!taskGraph.isComplete())` loop, with fuel bounding the
number of batches observed. -/
def execLoop (exec : String → ℕ → ExecOutcome) (maxRetries maxParallel : ℕ) :
    ℕ → ExecutionState → TaskGraph → ExecutionState × TaskGraph × List LoopEvent
  | 0, st, g => (st, g, [])
  | fuel + 1, st, g =>
      if isComplete g then (st, g, [])
      else
        let ready := getReadyTasks g st.completedTasks
        if ready.isEmpty then (st, g, [])
        else
          let batchIds := getParallelCandidates g ready maxParallel
          let batchTasks := batchIds.filterMap (getTask g)
          let g := batchIds.foldl markExecuting g
          let st := { st with inProgressTasks := batchIds.foldl setAdd st.inProgressTasks }
          let r := runBatch exec maxRetries st g batchTasks
          let rest := execLoop exec maxRetries maxParallel fuel r.1 r.2.1
          (rest.1, rest.2.1, r.2.2 ++ rest.2.2)

/-! ## Specification-side predicates -/

/-- `d` is a still-pending transitive dependent of the failed set `F`:
either a pending direct dependent of some `f ∈ F`, or a pending direct
dependent of a node that is itself so blocked (the cascade of
`markBlockedTasks`). -/
inductive BlockedFrom (g : TaskGraph) (F : List String) : String → Prop where
  | base (f d : String) (nf : TaskNode) :
      f ∈ F → mapGet g.nodes f = some nf → d ∈ nf.dependents →
      statusOf g d = some .pending → BlockedFrom g F d
  | step (m d : String) (nm : TaskNode) :
      BlockedFrom g F m → mapGet g.nodes m = some nm → d ∈ nm.dependents →
      statusOf g d = some .pending → BlockedFrom g F d

/-- `b` is a declared dependency of `a` in the graph. -/
def DepRel (g : TaskGraph) (b a : String) : Prop :=
  ∃ na, mapGet g.nodes a = some na ∧ b ∈ na.dependencies

/-- The graph has no dependency cycles. -/
def Acyclic (g : TaskGraph) : Prop := WellFounded (DepRel g)

/-- Well-formedness that `addTask` maintains: node keys are distinct,
the per-node edge lists are duplicate-free, and forward/backward edges
agree (every dependency has a node that lists the dependent, and
vice versa). -/
def WfGraph (g : TaskGraph) : Prop :=
  (g.nodes.map Prod.fst).Nodup
    ∧ (∀ p ∈ g.nodes, p.2.dependencies.Nodup)
    ∧ (∀ p ∈ g.nodes, p.2.dependents.Nodup)
    ∧ (∀ p ∈ g.nodes, ∀ b ∈ p.2.dependencies,
        ∃ q ∈ g.nodes, q.1 = b ∧ p.1 ∈ q.2.dependents)
    ∧ (∀ p ∈ g.nodes, ∀ a ∈ p.2.dependents,
        ∃ q ∈ g.nodes, q.1 = a ∧ p.1 ∈ q.2.dependencies)

instance : DecidablePred WfGraph := by
  intro g
  unfold WfGraph
  infer_instance

/-- How many entries of `deps` are already members of `res` (the number
of decrements Kahn's algorithm has applied to a node whose dependency
list is `deps` once the members of `res` have been popped). -/
def metCount (deps res : List String) : ℕ :=
  (deps.filter (fun b => decide (b ∈ res))).length

/-- Every position of `l` lists all its dependencies earlier: the
defining property of a topological order. -/
def EdgeOrder (g : TaskGraph) (l : List String) : Prop :=
  ∀ i (hi : i < l.length) na, mapGet g.nodes (l.get ⟨i, hi⟩) = some na →
    ∀ b ∈ na.dependencies, b ∈ l.take i

/-- An execution attempt that failed with a retryable error (a thrown
exception is always retried by `executeWithRetry`). -/
def failedRetryable : ExecOutcome → Prop
  | .ok r => r.success = false ∧ errRetryable r = true
  | .thrown _ => True

instance : DecidablePred failedRetryable := by
  intro o
  cases o <;> unfold failedRetryable <;> infer_instance

/-- The event trace `executeWithRetry` produces when it makes exactly
`n` attempts: a permit and an execution per attempt, with a backoff
(`handle429Error`) after every attempt but the last. -/
def attemptTrace (taskId : String) (n : ℕ) : List LoopEvent :=
  ((List.range n).map (fun k =>
    [LoopEvent.permit taskId k, LoopEvent.execute taskId k]
      ++ if k + 1 < n then [LoopEvent.backoff taskId k] else [])).flatten

/-- The trace of `n` consecutive attempts whose attempt numbers start
at `s` (the tail of `attemptTrace` after the first `s` attempts). -/
def attemptTraceFrom (taskId : String) (s n : ℕ) : List LoopEvent :=
  ((List.range n).map (fun k =>
    [LoopEvent.permit taskId (s + k), LoopEvent.execute taskId (s + k)]
      ++ if k + 1 < n then [LoopEvent.backoff taskId (s + k)] else [])).flatten

/-- How many times the trace executes the given task. -/
def execCount (evs : List LoopEvent) (taskId : String) : ℕ :=
  (evs.filter (fun e =>
    match e with
    | .execute t _ => t == taskId
    | _ => false)).length

/-- How one propagation step may change the graph: every node keeps its
identity and edges, and its status either stays put or flips from
`pending` to `blocked`. -/
def Evolves (g g' : TaskGraph) : Prop :=
  ∀ k, (mapGet g.nodes k = none ∧ mapGet g'.nodes k = none)
    ∨ ∃ nd nd', mapGet g.nodes k = some nd ∧ mapGet g'.nodes k = some nd'
        ∧ nd'.taskId = nd.taskId ∧ nd'.dependencies = nd.dependencies
        ∧ nd'.dependents = nd.dependents
        ∧ (nd'.status = nd.status ∨ (nd.status = .pending ∧ nd'.status = .blocked))

/-- All of `f`'s direct dependents have been taken out of `pending`. -/
def DonePost (g : TaskGraph) (f : String) : Prop :=
  ∀ nf, mapGet g.nodes f = some nf → ∀ d ∈ nf.dependents, statusOf g d ≠ some .pending

/-- Every node flipped from `pending` to `blocked` between `g` and `g'`
has all its dependents out of `pending` in `g'` (the propagation has
fully cascaded through it). -/
def FlippedDone (g g' : TaskGraph) : Prop :=
  ∀ n, statusOf g n = some .pending → statusOf g' n = some .blocked → DonePost g' n

/-- Invariant established by the batch-reconciliation fold: starting the
fold at `(st, g)` and processing the settled pairs `settled`, the
resulting pair `q` keeps `inProgressTasks` duplicate-free, only grows
the completed/failed sets, only shrinks the in-progress set, records
every settled task as completed or failed and not in progress, keeps
every node's existence and terminal (completed/failed) statuses, and
leaves every settled task's node terminal. -/
@[reducible] def ReconcileInv (st : ExecutionState) (g : TaskGraph)
    (settled : List (Task × (ExecutionResult × List LoopEvent)))
    (q : ExecutionState × TaskGraph) : Prop :=
  q.1.inProgressTasks.Nodup
    ∧ (∀ tid, tid ∈ st.completedTasks → tid ∈ q.1.completedTasks)
    ∧ (∀ tid, tid ∈ st.failedTasks.map Prod.fst → tid ∈ q.1.failedTasks.map Prod.fst)
    ∧ (∀ tid, tid ∉ st.inProgressTasks → tid ∉ q.1.inProgressTasks)
    ∧ (∀ p ∈ settled,
        (p.1.id ∈ q.1.completedTasks ∨ p.1.id ∈ q.1.failedTasks.map Prod.fst)
          ∧ p.1.id ∉ q.1.inProgressTasks)
    ∧ (∀ n, statusOf g n = some .completed ∨ statusOf g n = some .failed →
        statusOf q.2 n = some .completed ∨ statusOf q.2 n = some .failed)
    ∧ (∀ n, (statusOf g n).isSome → (statusOf q.2 n).isSome)
    ∧ (∀ p ∈ settled, (statusOf g p.1.id).isSome →
        statusOf q.2 p.1.id = some .completed ∨ statusOf q.2 p.1.id = some .failed)

/-! ## Concrete fixtures used by witnesses and counterexamples -/

/-- A bucket of capacity 10 and refill rate 1 token/ms, fresh at time 0. -/
def bDemo : TokenBucket := { capacity := 10, refillRate := 1, tokens := 10, lastRefill := 0 }

/-- A manager whose input bucket (capacity 40) cannot fit an estimate of
100 input tokens. -/
def mDemo : RateLimitManager :=
  { rpmBucket := { capacity := 50, refillRate := 50 / 60000, tokens := 50, lastRefill := 0 }
    itpmBucket := { capacity := 40, refillRate := 40 / 60000, tokens := 40, lastRefill := 0 }
    otpmBucket := { capacity := 8, refillRate := 8 / 60000, tokens := 8, lastRefill := 0 }
    requestCount := 0 }

/-- Task `A` with no dependencies. -/
def taskA : Task :=
  { id := "A", title := "A", priority := 0, dependencies := [], estimatedTokens := none }

/-- Task `B` depending on `A`. -/
def taskB : Task :=
  { id := "B", title := "B", priority := 0, dependencies := ["A"], estimatedTokens := none }

/-- Task `C` depending on `B`. -/
def taskC : Task :=
  { id := "C", title := "C", priority := 0, dependencies := ["B"], estimatedTokens := none }

/-- The chain `A → B → C` (`B` depends on `A`, `C` depends on `B`). -/
def gChain : TaskGraph := addTask (addTask (addTask TaskGraph.empty taskA) taskB) taskC

/-- A rank function witnessing that the chain is acyclic. -/
def rankChain (id : String) : ℕ :=
  if id = "A" then 0 else if id = "B" then 1 else 2

/-- The graph `A → B` only. -/
def gAB : TaskGraph := addTask (addTask TaskGraph.empty taskA) taskB

/-- A fresh empty execution state. -/
def stEmpty : ExecutionState :=
  { checkpointId := "cp-0", timestamp := 0, completedTasks := [], failedTasks := [],
    inProgressTasks := [], totalTokensUsed := 0, executionTimeMs := 0 }

/-- An executor oracle that always fails with a retryable rate-limit
error. -/
def execAlways429 : String → ℕ → ExecOutcome := fun taskId _ =>
  .ok { taskId := taskId
        success := false
        error := some { code := "RATE_LIMITED", message := "Rate limit exceeded", retryable := true }
        tokensUsed := ⟨0, 0, 0⟩ }

/-- The run of the main loop on `A → B` where every attempt of `A` hits
a retryable error. -/
def runAB : ExecutionState × TaskGraph × List LoopEvent :=
  execLoop execAlways429 3 3 4 stEmpty gAB

/-- Two independent tasks with distinct priorities. -/
def taskT1 : Task :=
  { id := "T1", title := "T1", priority := 5, dependencies := [], estimatedTokens := none }

/-- Second independent task. -/
def taskT2 : Task :=
  { id := "T2", title := "T2", priority := 3, dependencies := [], estimatedTokens := none }

/-- The two-task graph with no edges. -/
def gT12 : TaskGraph := addTask (addTask TaskGraph.empty taskT1) taskT2

/-- An executor oracle that always succeeds. -/
def execAlwaysOk : String → ℕ → ExecOutcome := fun taskId _ =>
  .ok { taskId := taskId, success := true, error := none, tokensUsed := ⟨0, 0, 0⟩ }

/-- The run of the main loop on the two independent tasks with
`maxParallel = 2`, everything succeeding. -/
def runT12 : ExecutionState × TaskGraph × List LoopEvent :=
  execLoop execAlwaysOk 3 2 3 stEmpty gT12

/-- A populated execution state for the checkpoint round-trip witness. -/
def stDemo : ExecutionState :=
  { checkpointId := "cp-demo"
    timestamp := 17
    completedTasks := ["A", "B"]
    failedTasks := [("C", { code := "API_ERROR", message := "boom", retryable := false })]
    inProgressTasks := ["D"]
    totalTokensUsed := 1234
    executionTimeMs := 5678 }

/-! # Theorems

General-purpose lemmas about the embedded collections and the token
bucket, followed by one theorem per claim. -/

section MapLemmas

variable {α : Type}

theorem mapGet_nil (k : String) : mapGet ([] : List (String × α)) k = none := rfl

theorem mapGet_cons (p : String × α) (rest : List (String × α)) (k : String) :
    mapGet (p :: rest) k = if p.1 = k then some p.2 else mapGet rest k := by
  by_cases h : p.1 = k
  · rw [mapGet, List.find?_cons_of_pos _ (by simpa using h)]
    simp [h]
  · rw [mapGet, List.find?_cons_of_neg _ (by simpa using h)]
    simp [h, mapGet]

theorem mapSet_cons (p : String × α) (rest : List (String × α)) (k : String) (v : α) :
    mapSet (p :: rest) k v =
      if p.1 = k then (k, v) :: rest else p :: mapSet rest k v := by
  cases p with
  | mk a b => simp [mapSet]

theorem mapUpdate_cons (p : String × α) (rest : List (String × α)) (k : String) (f : α → α) :
    mapUpdate (p :: rest) k f =
      if p.1 = k then (p.1, f p.2) :: rest else p :: mapUpdate rest k f := by
  cases p with
  | mk a b => simp [mapUpdate]

theorem mapGet_mapSet_self (m : List (String × α)) (k : String) (v : α) :
    mapGet (mapSet m k v) k = some v := by
  induction m with
  | nil => simp [mapSet, mapGet_cons, mapGet_nil]
  | cons p rest ih =>
      by_cases h : p.1 = k
      · simp [mapSet_cons, h, mapGet_cons]
      · simp [mapSet_cons, h, mapGet_cons, ih]

theorem mapGet_mapSet_ne (m : List (String × α)) (k k' : String) (v : α) (h : k' ≠ k) :
    mapGet (mapSet m k v) k' = mapGet m k' := by
  induction m with
  | nil => simp [mapSet, mapGet_cons, mapGet_nil, Ne.symm h]
  | cons p rest ih =>
      by_cases hp : p.1 = k
      · subst hp
        simp [mapSet_cons, mapGet_cons, Ne.symm h]
      · simp [mapSet_cons, hp, mapGet_cons, ih]

theorem mapGet_mapUpdate_self (m : List (String × α)) (k : String) (f : α → α) :
    mapGet (mapUpdate m k f) k = (mapGet m k).map f := by
  induction m with
  | nil => simp [mapUpdate, mapGet_nil]
  | cons p rest ih =>
      by_cases h : p.1 = k
      · simp [mapUpdate_cons, h, mapGet_cons]
      · simp [mapUpdate_cons, h, mapGet_cons, ih]

theorem mapGet_mapUpdate_ne (m : List (String × α)) (k k' : String) (f : α → α) (h : k' ≠ k) :
    mapGet (mapUpdate m k f) k' = mapGet m k' := by
  induction m with
  | nil => simp [mapUpdate]
  | cons p rest ih =>
      by_cases hp : p.1 = k
      · subst hp
        simp [mapUpdate_cons, mapGet_cons, Ne.symm h]
      · simp [mapUpdate_cons, hp, mapGet_cons, ih]

theorem mapUpdate_keys (m : List (String × α)) (k : String) (f : α → α) :
    (mapUpdate m k f).map Prod.fst = m.map Prod.fst := by
  induction m with
  | nil => simp [mapUpdate]
  | cons p rest ih =>
      by_cases h : p.1 = k
      · simp [mapUpdate, h]
      · simp [mapUpdate, h, ih]

theorem mapSet_of_not_mem_keys (m : List (String × α)) (k : String) (v : α)
    (h : k ∉ m.map Prod.fst) : mapSet m k v = m ++ [(k, v)] := by
  induction m with
  | nil => simp [mapSet]
  | cons p rest ih =>
      simp only [List.map_cons, List.mem_cons] at h
      push_neg at h
      simp [mapSet, Ne.symm h.1, ih h.2]

theorem setAdd_of_not_mem (s : List String) (x : String) (h : x ∉ s) :
    setAdd s x = s ++ [x] := by
  simp [setAdd, h]

theorem mem_setAdd (s : List String) (x y : String) :
    y ∈ setAdd s x ↔ y ∈ s ∨ y = x := by
  unfold setAdd
  by_cases h : x ∈ s
  · rw [if_pos (by simpa using h)]
    constructor
    · exact Or.inl
    · rintro (hy | rfl)
      · exact hy
      · exact h
  · rw [if_neg (by simpa using h)]
    simp

theorem setAdd_nodup (s : List String) (x : String) (h : s.Nodup) : (setAdd s x).Nodup := by
  unfold setAdd
  by_cases hx : x ∈ s
  · rwa [if_pos (by simpa using hx)]
  · rw [if_neg (by simpa using hx)]
    simpa [List.nodup_append, h] using hx

theorem foldl_setAdd_of_nodup (l : List String) :
    ∀ acc, (acc ++ l).Nodup → l.foldl setAdd acc = acc ++ l := by
  induction l with
  | nil => intro acc _; simp
  | cons a rest ih =>
      intro acc hacc
      have ha : a ∉ acc := by
        intro hmem
        exact List.disjoint_of_nodup_append hacc hmem (by simp)
      rw [List.foldl_cons, setAdd_of_not_mem acc a ha, ih (acc ++ [a]) (by simpa using hacc)]
      simp

theorem setFromList_of_nodup (l : List String) (h : l.Nodup) : setFromList l = l := by
  simpa using foldl_setAdd_of_nodup l [] (by simpa using h)

theorem foldl_mapSet_of_nodup (l : List (String × ExecutionError)) :
    ∀ acc, ((acc ++ l).map Prod.fst).Nodup →
      l.foldl (fun m p => mapSet m p.1 p.2) acc = acc ++ l := by
  induction l with
  | nil => intro acc _; simp
  | cons a rest ih =>
      intro acc hacc
      have ha : a.1 ∉ acc.map Prod.fst := by
        intro hmem
        simp only [List.map_append, List.map_cons] at hacc
        exact List.disjoint_of_nodup_append hacc hmem (by simp)
      rw [List.foldl_cons, mapSet_of_not_mem_keys acc a.1 a.2 ha]
      have := ih (acc ++ [(a.1, a.2)]) (by simpa using hacc)
      simpa using this

theorem mapFromList_of_nodup (l : List (String × ExecutionError))
    (h : (l.map Prod.fst).Nodup) : mapFromList l = l := by
  simpa using foldl_mapSet_of_nodup l [] (by simpa using h)

end MapLemmas

section BucketLemmas

namespace TokenBucket

theorem refill_capacity (b : TokenBucket) (t : ℚ) : (b.refill t).capacity = b.capacity := rfl

theorem refill_rate (b : TokenBucket) (t : ℚ) : (b.refill t).refillRate = b.refillRate := rfl

theorem refill_lastRefill (b : TokenBucket) (t : ℚ) : (b.refill t).lastRefill = t := rfl

theorem refill_tokens_le (b : TokenBucket) (t : ℚ) : (b.refill t).tokens ≤ b.capacity :=
  min_le_left _ _

/-- Lazy refills compose: refilling at `t₁` and then at `t₂` is the same
as refilling once at `t₂`, provided no refill credit is lost in between. -/
theorem refill_refill (b : TokenBucket) (t₁ t₂ : ℚ)
    (h : 0 ≤ (t₂ - t₁) * b.refillRate) :
    (b.refill t₁).refill t₂ = b.refill t₂ := by
  unfold refill
  simp only [TokenBucket.mk.injEq]
  refine ⟨trivial, trivial, ?_, trivial⟩
  rcases le_or_lt (b.tokens + (t₁ - b.lastRefill) * b.refillRate) b.capacity with hle | hgt
  · rw [min_eq_right hle]
    ring_nf
  · rw [min_eq_left (le_of_lt hgt)]
    have h2 : b.capacity ≤ b.capacity + (t₂ - t₁) * b.refillRate := by linarith
    rw [min_eq_left h2, min_eq_left (by linarith)]

theorem refill_idem (b : TokenBucket) (t : ℚ) : (b.refill t).refill t = b.refill t := by
  apply refill_refill
  simp

/-- Success analysis of `tryConsume`, field by field. -/
theorem tryConsume_true (b : TokenBucket) (c t : ℚ) (b1 : TokenBucket)
    (h : b.tryConsume c t = (true, b1)) :
    c ≤ (b.refill t).tokens ∧ b1.capacity = b.capacity ∧ b1.refillRate = b.refillRate
      ∧ b1.tokens = (b.refill t).tokens - c ∧ b1.lastRefill = t := by
  simp only [tryConsume] at h
  by_cases hc : c ≤ (b.refill t).tokens
  · rw [if_pos hc, Prod.mk.injEq] at h
    obtain ⟨-, h2⟩ := h
    subst h2
    exact ⟨hc, rfl, rfl, rfl, rfl⟩
  · rw [if_neg hc, Prod.mk.injEq] at h
    exact absurd h.1 (by simp)

/-- Failure analysis of `tryConsume`: the bucket is only refilled. -/
theorem tryConsume_false (b : TokenBucket) (c t : ℚ) (b1 : TokenBucket)
    (h : b.tryConsume c t = (false, b1)) :
    ¬ c ≤ (b.refill t).tokens ∧ b1 = b.refill t := by
  simp only [tryConsume] at h
  by_cases hc : c ≤ (b.refill t).tokens
  · rw [if_pos hc, Prod.mk.injEq] at h
    exact absurd h.1 (by simp)
  · rw [if_neg hc, Prod.mk.injEq] at h
    exact ⟨hc, h.2.symm⟩

/-- Refilling a bucket that was just refilled at the same time is a
no-op. -/
theorem refill_noop (b : TokenBucket) (t : ℚ) (hl : b.lastRefill = t)
    (hle : b.tokens ≤ b.capacity) : b.refill t = b := by
  unfold refill
  conv_rhs => rw [show b = ⟨b.capacity, b.refillRate, b.tokens, b.lastRefill⟩ from rfl]
  simp only [TokenBucket.mk.injEq]
  refine ⟨trivial, trivial, ?_, hl.symm⟩
  rw [hl]
  simp [min_eq_right hle]

/-- `getWaitTime` applied to an already-refilled bucket leaves it
unchanged. -/
theorem getWaitTime_snd_refilled (b : TokenBucket) (c t : ℚ) :
    ((b.refill t).getWaitTime c t).2 = b.refill t := by
  simp only [getWaitTime]
  by_cases hc : c ≤ ((b.refill t).refill t).tokens
  · rw [if_pos hc, refill_idem]
  · rw [if_neg hc, refill_idem]

/-- The `setTokens(getAvailable() + c)` restore applied after a
successful `tryConsume(c)` at the same timestamp puts the bucket back to
its merely-refilled state. -/
theorem consume_restore (b : TokenBucket) (c t : ℚ) (b1 : TokenBucket)
    (h : b.tryConsume c t = (true, b1)) (hc : 0 ≤ c) :
    ((b1.getAvailable t).2).setTokens ((b1.getAvailable t).1 + c) t = b.refill t := by
  obtain ⟨hle, hcap, hrate, htokens, hlast⟩ := tryConsume_true b c t b1 h
  have hrle : (b.refill t).tokens ≤ b.capacity := refill_tokens_le b t
  have hnoop : b1.refill t = b1 :=
    refill_noop b1 t hlast (by rw [htokens, hcap]; linarith)
  simp only [getAvailable]
  rw [hnoop]
  simp only [setTokens]
  have hmax : max 0 (b1.tokens + c) = (b.refill t).tokens := by
    rw [htokens, sub_add_cancel]
    exact max_eq_right (le_trans hc hle)
  have hmin : min b1.capacity (max 0 (b1.tokens + c)) = (b.refill t).tokens := by
    rw [hmax, hcap]
    exact min_eq_right hrle
  conv_rhs => rw [show b.refill t =
      ⟨(b.refill t).capacity, (b.refill t).refillRate, (b.refill t).tokens,
        (b.refill t).lastRefill⟩ from rfl]
  simp only [TokenBucket.mk.injEq]
  refine ⟨?_, ?_, hmin, rfl⟩
  · rw [hcap]; rfl
  · rw [hrate]; rfl

end TokenBucket

/-- `refill` preserves the token-range invariant. -/
theorem BInv_refill (b : TokenBucket) (t : ℚ) (h : BInv b) (hR : 0 ≤ b.refillRate)
    (ht : b.lastRefill ≤ t) : BInv (b.refill t) := by
  obtain ⟨h0, hcap⟩ := h
  constructor
  · show 0 ≤ min b.capacity (b.tokens + (t - b.lastRefill) * b.refillRate)
    have hx : 0 ≤ (t - b.lastRefill) * b.refillRate := mul_nonneg (by linarith) hR
    exact le_min (by linarith) (by linarith)
  · exact TokenBucket.refill_tokens_le b t

/-- One bucket operation preserves the invariant, stamps `lastRefill`
with its time, and leaves capacity and rate unchanged. -/
theorem BInv_applyOp (b : TokenBucket) (op : BucketOp) (h : BInv b)
    (hR : 0 ≤ b.refillRate) (ht : b.lastRefill ≤ op.time) (harg : op.argOk) :
    BInv (applyOp b op) ∧ (applyOp b op).lastRefill = op.time
      ∧ (applyOp b op).capacity = b.capacity
      ∧ (applyOp b op).refillRate = b.refillRate := by
  have hcap0 : 0 ≤ b.capacity := le_trans h.1 h.2
  cases op with
  | tryConsume c t =>
      have hinv := BInv_refill b t h hR ht
      have hc0 : (0 : ℚ) ≤ c := harg
      rcases hres : b.tryConsume c t with ⟨fst, snd⟩
      have happ : applyOp b (.tryConsume c t) = snd := by simp [applyOp, hres]
      rw [happ]
      cases fst with
      | true =>
          obtain ⟨hle, hcap, hrate, htokens, hlast⟩ :=
            TokenBucket.tryConsume_true b c t snd hres
          have hrle : (b.refill t).tokens ≤ b.capacity := TokenBucket.refill_tokens_le b t
          refine ⟨⟨?_, ?_⟩, ?_, hcap, hrate⟩
          · rw [htokens]; linarith
          · rw [htokens, hcap]; linarith
          · rw [hlast]; rfl
      | false =>
          obtain ⟨-, rfl⟩ := TokenBucket.tryConsume_false b c t snd hres
          exact ⟨hinv, rfl, rfl, rfl⟩
  | getWaitTime c t =>
      have hinv := BInv_refill b t h hR ht
      have happ : applyOp b (.getWaitTime c t) = b.refill t := by
        simp only [applyOp, TokenBucket.getWaitTime]
        by_cases hc : c ≤ (b.refill t).tokens
        · rw [if_pos hc]
        · rw [if_neg hc]
      rw [happ]
      exact ⟨hinv, rfl, rfl, rfl⟩
  | getAvailable t =>
      exact ⟨BInv_refill b t h hR ht, rfl, rfl, rfl⟩
  | getFillPercentage t =>
      exact ⟨BInv_refill b t h hR ht, rfl, rfl, rfl⟩
  | setTokens c t =>
      refine ⟨⟨le_min hcap0 (le_max_left _ _), min_le_left _ _⟩, rfl, rfl, rfl⟩
  | reset t =>
      exact ⟨⟨hcap0, le_refl _⟩, rfl, rfl, rfl⟩

/-- A whole chronological operation sequence preserves the invariant
and the bucket's constants. -/
theorem BInv_applyOps (ops : List BucketOp) :
    ∀ b : TokenBucket, BInv b → 0 ≤ b.refillRate →
      List.Chain (· ≤ ·) b.lastRefill (ops.map BucketOp.time) →
      (∀ op ∈ ops, op.argOk) →
      BInv (applyOps b ops) ∧ (applyOps b ops).capacity = b.capacity
        ∧ (applyOps b ops).refillRate = b.refillRate := by
  induction ops with
  | nil => intro b h hR _ _; exact ⟨h, rfl, rfl⟩
  | cons op rest ih =>
      intro b h hR hchain hargs
      rcases List.chain_cons.mp (by simpa using hchain) with ⟨hle, hchain'⟩
      obtain ⟨h1, hlast, hcap, hrate⟩ :=
        BInv_applyOp b op h hR hle (hargs op (by simp))
      have hchain'' : List.Chain (· ≤ ·) (applyOp b op).lastRefill (rest.map BucketOp.time) := by
        rw [hlast]; exact hchain'
      obtain ⟨h2, hcap2, hrate2⟩ :=
        ih (applyOp b op) h1 (by rw [hrate]; exact hR) hchain''
          (fun o ho => hargs o (by simp [ho]))
      refine ⟨h2, ?_, ?_⟩
      · rw [applyOps, List.foldl_cons, ← applyOps, hcap2, hcap]
      · rw [applyOps, List.foldl_cons, ← applyOps, hrate2, hrate]

/-- C10: starting from a bucket constructed with capacity `C ≥ 0` and a
non-negative per-minute refill rate, any chronological sequence of
operations with non-negative consume arguments (and arbitrary
`setTokens` arguments) keeps the internal token count within `[0, C]`. -/
theorem tokenBucket_token_range (C rpm t0 : ℚ) (ops : List BucketOp)
    (hC : 0 ≤ C) (hrpm : 0 ≤ rpm)
    (hchain : List.Chain (· ≤ ·) t0 (ops.map BucketOp.time))
    (hargs : ∀ op ∈ ops, op.argOk) :
    0 ≤ (applyOps (TokenBucket.init C rpm t0) ops).tokens
      ∧ (applyOps (TokenBucket.init C rpm t0) ops).tokens ≤ C
      ∧ (applyOps (TokenBucket.init C rpm t0) ops).capacity = C := by
  have hrate : 0 ≤ (TokenBucket.init C rpm t0).refillRate := by
    simp only [TokenBucket.init]
    positivity
  obtain ⟨⟨h0, h1⟩, hcap, _⟩ :=
    BInv_applyOps ops (TokenBucket.init C rpm t0) ⟨hC, le_refl C⟩ hrate hchain hargs
  exact ⟨h0, by rwa [hcap] at h1, hcap⟩

/-- Witness for C10 on a concrete bucket and operation sequence. -/
theorem tokenBucket_token_range_witness :
    ((0 : ℚ) ≤ 10 ∧ (0 : ℚ) ≤ 60000
        ∧ List.Chain (· ≤ ·) (0 : ℚ)
            ([BucketOp.tryConsume 4 1, BucketOp.setTokens 100 2, BucketOp.reset 3,
              BucketOp.tryConsume 20 4, BucketOp.getWaitTime 5 5].map BucketOp.time)
        ∧ ∀ op ∈ [BucketOp.tryConsume 4 1, BucketOp.setTokens 100 2, BucketOp.reset 3,
              BucketOp.tryConsume 20 4, BucketOp.getWaitTime 5 5], op.argOk)
      ∧ 0 ≤ (applyOps (TokenBucket.init 10 60000 0)
            [BucketOp.tryConsume 4 1, BucketOp.setTokens 100 2, BucketOp.reset 3,
              BucketOp.tryConsume 20 4, BucketOp.getWaitTime 5 5]).tokens
      ∧ (applyOps (TokenBucket.init 10 60000 0)
            [BucketOp.tryConsume 4 1, BucketOp.setTokens 100 2, BucketOp.reset 3,
              BucketOp.tryConsume 20 4, BucketOp.getWaitTime 5 5]).tokens ≤ 10
      ∧ (applyOps (TokenBucket.init 10 60000 0)
            [BucketOp.tryConsume 4 1, BucketOp.setTokens 100 2, BucketOp.reset 3,
              BucketOp.tryConsume 20 4, BucketOp.getWaitTime 5 5]).capacity = 10 :=
  ⟨⟨by norm_num, by norm_num,
      by simp [List.chain_cons, BucketOp.time]; norm_num,
      by intro op hop; fin_cases hop <;> norm_num [BucketOp.argOk]⟩,
    tokenBucket_token_range 10 60000 0 _ (by norm_num) (by norm_num)
      (by simp [List.chain_cons, BucketOp.time]; norm_num)
      (by intro op hop; fin_cases hop <;> norm_num [BucketOp.argOk])⟩

/-- C8: `tryConsume(n)` refills and then succeeds, subtracting `n`, iff
the refilled count is at least `n`, and otherwise leaves the (refilled)
count unchanged; consequently, once a full capacity has been consumed,
`tryConsume(1)` succeeds exactly when the elapsed refill credit has
reached one token (and the capacity admits one). -/
theorem tryConsume_spec :
    (∀ (b : TokenBucket) (n t : ℚ),
       ((b.tryConsume n t).1 = true ↔ n ≤ b.tokensAt t)
         ∧ ((b.tryConsume n t).1 = true →
              (b.tryConsume n t).2.tokens = b.tokensAt t - n)
         ∧ ((b.tryConsume n t).1 = false →
              (b.tryConsume n t).2.tokens = b.tokensAt t))
      ∧ ∀ (b b1 : TokenBucket) (t t' : ℚ), b.tryConsume b.capacity t = (true, b1) →
          ((b1.tryConsume 1 t').1 = true ↔ 1 ≤ b.capacity ∧ 1 ≤ (t' - t) * b.refillRate) := by
  constructor
  · intro b n t
    rcases hres : b.tryConsume n t with ⟨fst, snd⟩
    cases fst with
    | true =>
        obtain ⟨hle, -, -, htokens, -⟩ := TokenBucket.tryConsume_true b n t snd hres
        exact ⟨by simpa [TokenBucket.tokensAt] using hle,
          fun _ => by simpa [TokenBucket.tokensAt] using htokens, by simp⟩
    | false =>
        obtain ⟨hgt, rfl⟩ := TokenBucket.tryConsume_false b n t snd hres
        exact ⟨by simpa [TokenBucket.tokensAt] using hgt, by simp,
          fun _ => by simp [TokenBucket.tokensAt]⟩
  · intro b b1 t t' h
    obtain ⟨hle, hcap, hrate, htokens, hlast⟩ :=
      TokenBucket.tryConsume_true b b.capacity t b1 h
    have htok : (b.refill t).tokens = b.capacity :=
      le_antisymm (TokenBucket.refill_tokens_le b t) hle
    have hzero : b1.tokens = 0 := by rw [htokens, htok, sub_self]
    rcases hres : b1.tryConsume 1 t' with ⟨fst, snd⟩
    have hrtok : (b1.refill t').tokens
        = min b.capacity ((t' - t) * b.refillRate) := by
      simp only [TokenBucket.refill, hzero, hlast, hcap, hrate, zero_add]
    cases fst with
    | true =>
        obtain ⟨h1, -, -, -, -⟩ := TokenBucket.tryConsume_true b1 1 t' snd hres
        rw [hrtok] at h1
        simp only [true_iff]
        exact ⟨le_trans h1 (min_le_left _ _), le_trans h1 (min_le_right _ _)⟩
    | false =>
        obtain ⟨h1, -⟩ := TokenBucket.tryConsume_false b1 1 t' snd hres
        rw [hrtok] at h1
        constructor
        · intro hfalse
          exact absurd hfalse (by simp)
        · rintro ⟨ha, hb⟩
          exact absurd (le_min ha hb) h1

/-- Witness for C8 on a concrete bucket. -/
theorem tryConsume_spec_witness :
    (bDemo.tryConsume 3 0).1 = true
      ∧ (bDemo.tryConsume 3 0).2.tokens = bDemo.tokensAt 0 - 3 :=
  ⟨by norm_num [bDemo, TokenBucket.tryConsume, TokenBucket.refill],
    (tryConsume_spec.1 bDemo 3 0).2.1
      (by norm_num [bDemo, TokenBucket.tryConsume, TokenBucket.refill])⟩

end BucketLemmas

section ManagerLemmas

/-- Refilling the result of a refill at the same instant changes
nothing observable. -/
theorem tokensAt_refill (b : TokenBucket) (t : ℚ) :
    (b.refill t).tokensAt t = b.tokensAt t := by
  unfold TokenBucket.tokensAt
  rw [TokenBucket.refill_idem]

theorem tryConsume_snd_capacity (b : TokenBucket) (c t : ℚ) :
    ((b.tryConsume c t).2).capacity = b.capacity := by
  rcases hres : b.tryConsume c t with ⟨fst, snd⟩
  cases fst with
  | true => exact (TokenBucket.tryConsume_true b c t snd hres).2.1
  | false =>
      obtain ⟨-, rfl⟩ := TokenBucket.tryConsume_false b c t snd hres
      rfl

theorem getWaitTime_snd_eq (b : TokenBucket) (c t : ℚ) :
    ((b.getWaitTime c t).2) = b.refill t := by
  simp only [TokenBucket.getWaitTime]
  by_cases hc : c ≤ (b.refill t).tokens
  · rw [if_pos hc]
  · rw [if_neg hc]

theorem getAvailable_snd_eq (b : TokenBucket) (t : ℚ) :
    ((b.getAvailable t).2) = b.refill t := rfl

theorem setTokens_capacity (b : TokenBucket) (c t : ℚ) :
    (b.setTokens c t).capacity = b.capacity := rfl

/-- C1: whenever an iteration of `acquirePermit`'s loop reaches a
suspension point (any of the three wait-and-retry branches), the three
buckets hold the same token counts, up to lazy refill, as at the start
of that attempt: the request token consumed in step 1 and the input
tokens consumed in step 2 have been fully restored.  (`clk i = t` says
the attempt runs within one clock instant, as the suspension itself only
happens after the rollback.) -/
theorem acquirePermit_rollback (clk : ℕ → ℚ) (m : RateLimitManager) (estIn estOut t : ℚ)
    (hclk : ∀ i, clk i = t) (hIn : 0 ≤ estIn) :
    ∀ reason w m', acquireAttempt clk estIn estOut m = .wait reason w m' →
      m'.rpmBucket.tokensAt t = m.rpmBucket.tokensAt t
        ∧ m'.itpmBucket.tokensAt t = m.itpmBucket.tokensAt t
        ∧ m'.otpmBucket.tokensAt t = m.otpmBucket.tokensAt t := by
  intro reason w m' h
  unfold acquireAttempt at h
  simp only [hclk] at h
  split at h
  next rpm1 heq =>
      obtain ⟨-, rfl⟩ := TokenBucket.tryConsume_false m.rpmBucket 1 t rpm1 heq
      simp only [AttemptResult.wait.injEq] at h
      obtain ⟨-, -, rfl⟩ := h
      refine ⟨?_, rfl, rfl⟩
      simp only [getWaitTime_snd_eq]
      rw [TokenBucket.refill_idem]
      exact tokensAt_refill m.rpmBucket t
  next rpm1 heq =>
      split at h
      next itpm1 heq2 =>
          obtain ⟨-, rfl⟩ := TokenBucket.tryConsume_false m.itpmBucket estIn t itpm1 heq2
          simp only [AttemptResult.wait.injEq] at h
          obtain ⟨-, -, rfl⟩ := h
          refine ⟨?_, ?_, rfl⟩
          · have hres := TokenBucket.consume_restore m.rpmBucket 1 t rpm1 heq (by norm_num)
            simp only [hres]
            exact tokensAt_refill m.rpmBucket t
          · simp only [getWaitTime_snd_eq]
            rw [TokenBucket.refill_idem]
            exact tokensAt_refill m.itpmBucket t
      next itpm1 heq2 =>
          split at h
          · split at h
            next otpm1 heq3 =>
                obtain ⟨-, rfl⟩ := TokenBucket.tryConsume_false m.otpmBucket estOut t otpm1 heq3
                simp only [AttemptResult.wait.injEq] at h
                obtain ⟨-, -, rfl⟩ := h
                refine ⟨?_, ?_, ?_⟩
                · have hres := TokenBucket.consume_restore m.rpmBucket 1 t rpm1 heq (by norm_num)
                  simp only [hres]
                  exact tokensAt_refill m.rpmBucket t
                · have hres := TokenBucket.consume_restore m.itpmBucket estIn t itpm1 heq2 hIn
                  simp only [hres]
                  exact tokensAt_refill m.itpmBucket t
                · simp only [getWaitTime_snd_eq]
                  rw [TokenBucket.refill_idem]
                  exact tokensAt_refill m.otpmBucket t
            next otpm1 heq3 => simp at h
          · simp at h

/-- Witness for C1: with a zero input estimate and a saturated request
bucket, an attempt on `mDemo` suspends and restores everything. -/
theorem acquirePermit_rollback_witness :
    (∀ i : ℕ, (fun _ : ℕ => (0 : ℚ)) i = 0) ∧ (0 : ℚ) ≤ 100
      ∧ ∀ reason w m', acquireAttempt (fun _ => 0) 100 0 mDemo = .wait reason w m' →
          m'.rpmBucket.tokensAt 0 = mDemo.rpmBucket.tokensAt 0
            ∧ m'.itpmBucket.tokensAt 0 = mDemo.itpmBucket.tokensAt 0
            ∧ m'.otpmBucket.tokensAt 0 = mDemo.otpmBucket.tokensAt 0 :=
  ⟨fun _ => rfl, by norm_num,
    acquirePermit_rollback (fun _ => 0) mDemo 100 0 0 (fun _ => rfl) (by norm_num)⟩

/-- An estimate exceeding the bucket capacity can never be consumed. -/
theorem tryConsume_fst_false_of_capacity_lt (b : TokenBucket) (n t : ℚ)
    (h : b.capacity < n) : (b.tryConsume n t).1 = false := by
  rcases hres : b.tryConsume n t with ⟨fst, snd⟩
  cases fst with
  | true =>
      obtain ⟨hle, -, -, -, -⟩ := TokenBucket.tryConsume_true b n t snd hres
      exact absurd (le_trans hle (TokenBucket.refill_tokens_le b t)) (by linarith)
  | false => rfl

/-- When the estimate is infeasible, every loop iteration suspends, and
the bucket capacities carry over to the next iteration unchanged. -/
theorem acquireAttempt_infeasible (clk : ℕ → ℚ) (estIn estOut : ℚ) (m : RateLimitManager)
    (h : m.itpmBucket.capacity < estIn ∨ (0 < estOut ∧ m.otpmBucket.capacity < estOut)) :
    ∃ reason w m', acquireAttempt clk estIn estOut m = .wait reason w m'
      ∧ m'.itpmBucket.capacity = m.itpmBucket.capacity
      ∧ m'.otpmBucket.capacity = m.otpmBucket.capacity := by
  unfold acquireAttempt
  split
  next rpm1 heq => exact ⟨.rpm, _, _, rfl, rfl, rfl⟩
  next rpm1 heq =>
      split
      next itpm1 heq2 =>
          refine ⟨.itpm, _, _, rfl, ?_, rfl⟩
          obtain ⟨-, rfl⟩ := TokenBucket.tryConsume_false m.itpmBucket estIn (clk 1) itpm1 heq2
          simp only [getWaitTime_snd_eq]
          rfl
      next itpm1 heq2 =>
          rcases h with hin | ⟨hpos, hout⟩
          · have hfalse := tryConsume_fst_false_of_capacity_lt m.itpmBucket estIn (clk 1) hin
            rw [heq2] at hfalse
            exact absurd hfalse (by simp)
          · rw [if_pos hpos]
            split
            next otpm1 heq3 =>
                refine ⟨.otpm, _, _, rfl, ?_, ?_⟩
                · exact (TokenBucket.tryConsume_true m.itpmBucket estIn (clk 1) itpm1 heq2).2.1
                · obtain ⟨-, rfl⟩ :=
                    TokenBucket.tryConsume_false m.otpmBucket estOut (clk 2) otpm1 heq3
                  simp only [getWaitTime_snd_eq]
                  rfl
            next otpm1 heq3 =>
                have hfalse := tryConsume_fst_false_of_capacity_lt m.otpmBucket estOut (clk 2) hout
                rw [heq3] at hfalse
                exact absurd hfalse (by simp)

/-- C9: if the estimated input tokens exceed the input bucket's capacity
(or a positive output estimate exceeds the output bucket's capacity),
then `tryConsume` of that amount fails at every time, `getWaitTime`
still answers with a finite positive wait, and the `acquirePermit` retry
loop never returns, whatever the clock does. -/
theorem acquirePermit_never_returns :
    (∀ (b : TokenBucket) (n t : ℚ), b.capacity < n → (b.tryConsume n t).1 = false)
      ∧ (∀ (b : TokenBucket) (n t : ℚ), b.capacity < n → 0 < b.refillRate →
          0 < (b.getWaitTime n t).1)
      ∧ (∀ (clks : ℕ → ℕ → ℚ) (estIn estOut : ℚ) (fuel : ℕ) (m : RateLimitManager),
          m.itpmBucket.capacity < estIn ∨ (0 < estOut ∧ m.otpmBucket.capacity < estOut) →
          acquirePermit clks estIn estOut fuel m = none) := by
  refine ⟨tryConsume_fst_false_of_capacity_lt, ?_, ?_⟩
  · intro b n t h hr
    have htok : (b.refill t).tokens < n :=
      lt_of_le_of_lt (TokenBucket.refill_tokens_le b t) h
    simp only [TokenBucket.getWaitTime]
    rw [if_neg (by linarith)]
    have hd : 0 < (n - (b.refill t).tokens) / b.refillRate :=
      div_pos (by linarith) hr
    have hpos : 0 < ⌈(n - (b.refill t).tokens) / b.refillRate⌉ := Int.ceil_pos.mpr hd
    show (0 : ℚ) < ((⌈(n - (b.refill t).tokens) / b.refillRate⌉ : ℤ) : ℚ)
    exact_mod_cast hpos
  · intro clks estIn estOut fuel
    induction fuel with
    | zero => intro m _; rfl
    | succ fuel ih =>
        intro m h
        obtain ⟨reason, w, m', hatt, hcap1, hcap2⟩ :=
          acquireAttempt_infeasible (clks fuel) estIn estOut m h
        show (match acquireAttempt (clks fuel) estIn estOut m with
          | .granted m' => some m'
          | .wait _ _ m' => acquirePermit clks estIn estOut fuel m') = none
        rw [hatt]
        apply ih
        rcases h with hin | ⟨hpos, hout⟩
        · exact Or.inl (by rwa [hcap1])
        · exact Or.inr ⟨hpos, by rwa [hcap2]⟩

/-- Witness for C9 on the concrete manager `mDemo` whose input bucket
holds at most 40 tokens. -/
theorem acquirePermit_never_returns_witness :
    (mDemo.itpmBucket.capacity < 100 ∨ ((0 : ℚ) < 0 ∧ mDemo.otpmBucket.capacity < 0))
      ∧ acquirePermit (fun _ _ => 0) 100 0 5 mDemo = none :=
  ⟨Or.inl (by norm_num [mDemo]),
    acquirePermit_never_returns.2.2 (fun _ _ => 0) 100 0 5 mDemo
      (Or.inl (by norm_num [mDemo]))⟩

end ManagerLemmas

section CheckpointLemmas

/-- C7: saving any execution state and loading it back under its
checkpoint id restores the completed set, the failed map with every
error's code, message and retryable flag, the in-progress set, and both
counters. -/
theorem checkpoint_roundtrip (store : CheckpointStore) (s : ExecutionState) (freshId : String)
    (hid : s.checkpointId ≠ "")
    (h1 : s.completedTasks.Nodup)
    (h2 : (s.failedTasks.map Prod.fst).Nodup)
    (h3 : s.inProgressTasks.Nodup) :
    ∃ r, loadCheckpoint (saveCheckpoint store s freshId).1 s.checkpointId = some r
      ∧ r.completedTasks = s.completedTasks
      ∧ r.failedTasks = s.failedTasks
      ∧ r.inProgressTasks = s.inProgressTasks
      ∧ r.totalTokensUsed = s.totalTokensUsed
      ∧ r.executionTimeMs = s.executionTimeMs := by
  refine ⟨dataToState (stateToData s), ?_, ?_, ?_, ?_, rfl, rfl⟩
  · show (mapGet (saveCheckpoint store s freshId).1
        (getCheckpointPath s.checkpointId)).map dataToState
      = some (dataToState (stateToData s))
    have hsave : (saveCheckpoint store s freshId).1
        = mapSet store (getCheckpointPath s.checkpointId) (stateToData s) := by
      simp only [saveCheckpoint, if_neg hid]
    rw [hsave, mapGet_mapSet_self]
    rfl
  · show setFromList s.completedTasks = s.completedTasks
    exact setFromList_of_nodup _ h1
  · show mapFromList s.failedTasks = s.failedTasks
    exact mapFromList_of_nodup _ h2
  · show setFromList s.inProgressTasks = s.inProgressTasks
    exact setFromList_of_nodup _ h3

/-- Witness for C7 on a populated concrete state. -/
theorem checkpoint_roundtrip_witness :
    (stDemo.checkpointId ≠ "" ∧ stDemo.completedTasks.Nodup
        ∧ (stDemo.failedTasks.map Prod.fst).Nodup ∧ stDemo.inProgressTasks.Nodup)
      ∧ ∃ r, loadCheckpoint (saveCheckpoint [] stDemo "fresh").1 stDemo.checkpointId = some r
          ∧ r.completedTasks = stDemo.completedTasks
          ∧ r.failedTasks = stDemo.failedTasks
          ∧ r.inProgressTasks = stDemo.inProgressTasks
          ∧ r.totalTokensUsed = stDemo.totalTokensUsed
          ∧ r.executionTimeMs = stDemo.executionTimeMs :=
  ⟨⟨by decide, by decide, by decide, by decide⟩,
    checkpoint_roundtrip [] stDemo "fresh" (by decide) (by decide) (by decide) (by decide)⟩

end CheckpointLemmas

section GraphStatusLemmas

/-- Effect of the shared status-overwriting body of the `mark*`
methods. -/
theorem statusOf_setStatus (g : TaskGraph) (id : String) (s : TStatus) (n : String) :
    statusOf (setStatus g id s) n =
      if n = id then (statusOf g n).map (fun _ => s) else statusOf g n := by
  unfold statusOf setStatus
  by_cases h : n = id
  · subst h
    rw [if_pos rfl, mapGet_mapUpdate_self]
    cases mapGet g.nodes n <;> rfl
  · rw [if_neg h, mapGet_mapUpdate_ne _ _ _ _ h]

/-- C4 counterexample: `markCompleted` moves a `pending` node straight
to `completed`, a transition the claim rules out. -/
theorem markCompleted_moves_pending_to_completed :
    statusOf gAB "A" = some TStatus.pending
      ∧ statusOf (markCompleted gAB "A") "A" = some TStatus.completed := by
  constructor
  · decide
  · decide

end GraphStatusLemmas

section BlockingLemmas

theorem Evolves.refl (g : TaskGraph) : Evolves g g := by
  intro k
  cases h : mapGet g.nodes k with
  | none => exact Or.inl ⟨rfl, rfl⟩
  | some nd => exact Or.inr ⟨nd, nd, rfl, rfl, rfl, rfl, rfl, Or.inl rfl⟩

theorem Evolves.trans {g1 g2 g3 : TaskGraph} (h12 : Evolves g1 g2) (h23 : Evolves g2 g3) :
    Evolves g1 g3 := by
  intro k
  rcases h12 k with ⟨hn1, hn2⟩ | ⟨nd1, nd2, hg1, hg2, hid, hdep, hdts, hst⟩
  · rcases h23 k with ⟨hn2', hn3⟩ | ⟨nd2, nd3, hg2, hg3, _, _, _, _⟩
    · exact Or.inl ⟨hn1, hn3⟩
    · rw [hn2] at hg2; exact absurd hg2 (by simp)
  · rcases h23 k with ⟨hn2', hn3⟩ | ⟨nd2', nd3, hg2', hg3, hid', hdep', hdts', hst'⟩
    · rw [hg2] at hn2'; exact absurd hn2' (by simp)
    · rw [hg2] at hg2'
      injection hg2' with hEq
      subst hEq
      refine Or.inr ⟨nd1, nd3, hg1, hg3, hid'.trans hid, hdep'.trans hdep,
        hdts'.trans hdts, ?_⟩
      rcases hst with hsame | ⟨hpend, hblk⟩
      · rcases hst' with hsame' | ⟨hpend', hblk'⟩
        · exact Or.inl (hsame'.trans hsame)
        · exact Or.inr ⟨hsame ▸ hpend', hblk'⟩
      · rcases hst' with hsame' | ⟨hpend', hblk'⟩
        · exact Or.inr ⟨hpend, hsame'.trans hblk⟩
        · rw [hblk] at hpend'
          exact absurd hpend' (by simp)

/-- Status evolution along `Evolves`. -/
theorem Evolves.status_or {g g' : TaskGraph} (h : Evolves g g') (n : String) :
    statusOf g' n = statusOf g n
      ∨ (statusOf g n = some .pending ∧ statusOf g' n = some .blocked) := by
  rcases h n with ⟨h1, h2⟩ | ⟨nd, nd', hg, hg', _, _, _, hst⟩
  · exact Or.inl (by rw [statusOf, statusOf, h1, h2])
  · rcases hst with hsame | ⟨hpend, hblk⟩
    · exact Or.inl (by rw [statusOf, statusOf, hg, hg']; simp [hsame])
    · exact Or.inr ⟨by rw [statusOf, hg]; simp [hpend],
        by rw [statusOf, hg']; simp [hblk]⟩

theorem Evolves.not_pending {g g' : TaskGraph} (h : Evolves g g') (n : String)
    (hn : statusOf g n ≠ some .pending) : statusOf g' n = statusOf g n := by
  rcases h.status_or n with heq | ⟨hpend, _⟩
  · exact heq
  · exact absurd hpend hn

theorem Evolves.blocked_mono {g g' : TaskGraph} (h : Evolves g g') (n : String)
    (hn : statusOf g n = some .blocked) : statusOf g' n = some .blocked := by
  rw [h.not_pending n (by rw [hn]; simp), hn]

theorem Evolves.pending_back {g g' : TaskGraph} (h : Evolves g g') (n : String)
    (hn : statusOf g' n = some .pending) : statusOf g n = some .pending := by
  rcases h.status_or n with heq | ⟨hpend, hblk⟩
  · rw [← heq, hn]
  · rw [hn] at hblk
    exact absurd hblk (by simp)

/-- The node views agree along `Evolves` (same edges, possibly flipped
status). -/
theorem Evolves.get_back {g g' : TaskGraph} (h : Evolves g g') (k : String) (nd' : TaskNode)
    (hk : mapGet g'.nodes k = some nd') :
    ∃ nd, mapGet g.nodes k = some nd ∧ nd.dependencies = nd'.dependencies
      ∧ nd.dependents = nd'.dependents := by
  rcases h k with ⟨h1, h2⟩ | ⟨nd, nd2, hg, hg', _, hdep, hdts, _⟩
  · rw [hk] at h2; exact absurd h2 (by simp)
  · rw [hk] at hg'
    injection hg' with hEq
    subst hEq
    exact ⟨nd, hg, hdep.symm, hdts.symm⟩

theorem Evolves.get_fwd {g g' : TaskGraph} (h : Evolves g g') (k : String) (nd : TaskNode)
    (hk : mapGet g.nodes k = some nd) :
    ∃ nd', mapGet g'.nodes k = some nd' ∧ nd'.dependencies = nd.dependencies
      ∧ nd'.dependents = nd.dependents := by
  rcases h k with ⟨h1, h2⟩ | ⟨nd0, nd', hg, hg', _, hdep, hdts, _⟩
  · rw [hk] at h1; exact absurd h1 (by simp)
  · rw [hk] at hg
    injection hg with hEq
    subst hEq
    exact ⟨nd', hg', hdep, hdts⟩

theorem DonePost.mono {g g' : TaskGraph} (h : Evolves g g') (f : String)
    (hd : DonePost g f) : DonePost g' f := by
  intro nf' hget' d hdmem hpend'
  obtain ⟨nf, hget, hdep, hdts⟩ := h.get_back f nf' hget'
  have hd' := hd nf hget d (by rw [hdts]; exact hdmem)
  exact hd' (h.pending_back d hpend')

/-- Flipping one pending node to blocked is an evolution step. -/
theorem Evolves.setStatus_blocked (g : TaskGraph) (d : String)
    (hp : statusOf g d = some .pending) : Evolves g (setStatus g d .blocked) := by
  intro k
  by_cases hk : k = d
  · subst hk
    rcases hget : mapGet g.nodes k with _ | nd
    · rw [statusOf, hget] at hp
      exact absurd hp (by simp)
    · refine Or.inr ⟨nd, { nd with status := .blocked }, rfl, ?_, rfl, rfl, rfl, ?_⟩
      · show mapGet (mapUpdate g.nodes k _) k = _
        rw [mapGet_mapUpdate_self, hget]
        rfl
      · right
        constructor
        · rw [statusOf, hget] at hp
          simpa using hp
        · rfl
  · rcases hget : mapGet g.nodes k with _ | nd
    · refine Or.inl ⟨rfl, ?_⟩
      show mapGet (mapUpdate g.nodes d _) k = none
      rw [mapGet_mapUpdate_ne _ _ _ _ hk, hget]
    · refine Or.inr ⟨nd, nd, rfl, ?_, rfl, rfl, rfl, Or.inl rfl⟩
      show mapGet (mapUpdate g.nodes d _) k = some nd
      rw [mapGet_mapUpdate_ne _ _ _ _ hk, hget]

/-- List-level core of the pending-count decrease. -/
theorem pendingCount_update_aux (nodes : List (String × TaskNode)) (d : String)
    (hp : ∃ nd, mapGet nodes d = some nd ∧ nd.status = TStatus.pending) :
    (List.filter (fun p => p.2.status == TStatus.pending)
        (mapUpdate nodes d (fun n => { n with status := TStatus.blocked }))).length + 1
      = (List.filter (fun p => p.2.status == TStatus.pending) nodes).length := by
  induction nodes with
  | nil =>
      obtain ⟨nd, hnd, -⟩ := hp
      exact absurd hnd (by simp [mapGet])
  | cons p rest ih =>
      obtain ⟨nd, hnd, hst⟩ := hp
      rw [mapGet_cons] at hnd
      by_cases hpd : p.1 = d
      · rw [if_pos hpd] at hnd
        injection hnd with hEq
        subst hEq
        rw [mapUpdate_cons, if_pos hpd]
        have h1 : List.filter (fun q => q.2.status == TStatus.pending)
            ((p.1, ({ p.2 with status := TStatus.blocked } : TaskNode)) :: rest)
            = List.filter (fun q => q.2.status == TStatus.pending) rest :=
          List.filter_cons_of_neg (by simp)
        have h2 : List.filter (fun q => q.2.status == TStatus.pending) (p :: rest)
            = p :: List.filter (fun q => q.2.status == TStatus.pending) rest :=
          List.filter_cons_of_pos (by simpa using hst)
        rw [h1, h2]
        simp
      · rw [if_neg hpd] at hnd
        rw [mapUpdate_cons, if_neg hpd]
        have ih' := ih ⟨nd, hnd, hst⟩
        by_cases hmatch : (p.2.status == TStatus.pending) = true
        · have h1 : List.filter (fun q => q.2.status == TStatus.pending)
              (p :: mapUpdate rest d (fun n => { n with status := TStatus.blocked }))
              = p :: List.filter (fun q => q.2.status == TStatus.pending)
                  (mapUpdate rest d (fun n => { n with status := TStatus.blocked })) :=
            List.filter_cons_of_pos hmatch
          have h2 : List.filter (fun q => q.2.status == TStatus.pending) (p :: rest)
              = p :: List.filter (fun q => q.2.status == TStatus.pending) rest :=
            List.filter_cons_of_pos hmatch
          rw [h1, h2]
          simp only [List.length_cons]
          omega
        · have h1 : List.filter (fun q => q.2.status == TStatus.pending)
              (p :: mapUpdate rest d (fun n => { n with status := TStatus.blocked }))
              = List.filter (fun q => q.2.status == TStatus.pending)
                  (mapUpdate rest d (fun n => { n with status := TStatus.blocked })) :=
            List.filter_cons_of_neg (by simpa using hmatch)
          have h2 : List.filter (fun q => q.2.status == TStatus.pending) (p :: rest)
              = List.filter (fun q => q.2.status == TStatus.pending) rest :=
            List.filter_cons_of_neg (by simpa using hmatch)
          rw [h1, h2]
          exact ih'

/-- Flipping the (first occurrence of a) pending node decreases the
pending-entry count by exactly one. -/
theorem pendingCount_setStatus_blocked (g : TaskGraph) (d : String)
    (hp : statusOf g d = some .pending) :
    pendingCount (setStatus g d .blocked) + 1 = pendingCount g := by
  apply pendingCount_update_aux
  rw [statusOf] at hp
  rcases hget : mapGet g.nodes d with _ | nd
  · rw [hget] at hp
    exact absurd hp (by simp)
  · rw [hget] at hp
    exact ⟨nd, rfl, by simpa using hp⟩

/-- A node read as `pending` witnesses a positive pending count. -/
theorem pendingCount_pos (g : TaskGraph) (d : String)
    (hp : statusOf g d = some .pending) : 0 < pendingCount g := by
  have := pendingCount_setStatus_blocked g d hp
  omega

theorem propagateBlocked_zero (g : TaskGraph) (f : String) (acc : List String) :
    propagateBlocked 0 g f acc = (g, acc) := rfl

theorem propagateBlocked_succ (fuel : ℕ) (g : TaskGraph) (f : String) (acc : List String) :
    propagateBlocked (fuel + 1) g f acc =
      match mapGet g.nodes f with
      | none => (g, acc)
      | some node => propagateDeps (propagateBlocked fuel) g node.dependents acc := rfl

theorem propagateDeps_nil (pb : TaskGraph → String → List String → TaskGraph × List String)
    (g : TaskGraph) (acc : List String) :
    propagateDeps pb g [] acc = (g, acc) := rfl

theorem propagateDeps_cons (pb : TaskGraph → String → List String → TaskGraph × List String)
    (g : TaskGraph) (depId : String) (rest acc : List String) :
    propagateDeps pb g (depId :: rest) acc =
      match mapGet g.nodes depId with
      | some dn =>
          if dn.status = .pending then
            let g1 := setStatus g depId .blocked
            let r := pb g1 depId (acc ++ [depId])
            propagateDeps pb r.1 rest r.2
          else propagateDeps pb g rest acc
      | none => propagateDeps pb g rest acc := rfl

/-- Postcondition of the dependent-processing loop, parametrised by the
postcondition of the recursive `propagateBlocked` call at the current
fuel: with sufficient fuel the graph only evolves by pending-to-blocked
flips, the pending count does not grow, every processed dependent ends
up out of `pending`, and every node flipped during the call has fully
cascaded. -/
theorem propagateDeps_post (fuel : ℕ)
    (hpb : ∀ (g : TaskGraph) (f : String) (acc : List String),
      pendingCount g < fuel →
        Evolves g (propagateBlocked fuel g f acc).1
          ∧ pendingCount (propagateBlocked fuel g f acc).1 ≤ pendingCount g
          ∧ DonePost (propagateBlocked fuel g f acc).1 f
          ∧ FlippedDone g (propagateBlocked fuel g f acc).1) :
    ∀ (l : List String) (g : TaskGraph) (acc : List String),
      pendingCount g ≤ fuel →
        Evolves g (propagateDeps (propagateBlocked fuel) g l acc).1
          ∧ pendingCount (propagateDeps (propagateBlocked fuel) g l acc).1 ≤ pendingCount g
          ∧ (∀ d ∈ l,
              statusOf (propagateDeps (propagateBlocked fuel) g l acc).1 d ≠ some .pending)
          ∧ FlippedDone g (propagateDeps (propagateBlocked fuel) g l acc).1 := by
  intro l
  induction l with
  | nil =>
      intro g acc hfuel
      rw [propagateDeps_nil]
      refine ⟨Evolves.refl g, le_refl _, by simp, ?_⟩
      intro n h1 h2
      rw [h1] at h2
      exact absurd h2 (by simp)
  | cons depId rest ih =>
      intro g acc hfuel
      cases heq : mapGet g.nodes depId with
      | none =>
          have hstep : propagateDeps (propagateBlocked fuel) g (depId :: rest) acc
              = propagateDeps (propagateBlocked fuel) g rest acc := by
            rw [propagateDeps_cons]
            simp only [heq]
          obtain ⟨hEv, hpc, hRest, hFlip⟩ := ih g acc hfuel
          rw [hstep]
          refine ⟨hEv, hpc, ?_, hFlip⟩
          intro d hd
          rcases List.mem_cons.mp hd with rfl | hdrest
          · have : statusOf g d ≠ some .pending := by
              rw [statusOf, heq]
              simp
            rw [hEv.not_pending d this]
            exact this
          · exact hRest d hdrest
      | some dn =>
          by_cases hst : dn.status = .pending
          · have hpend : statusOf g depId = some .pending := by
              rw [statusOf, heq]
              simp [hst]
            have hEv01 : Evolves g (setStatus g depId .blocked) :=
              Evolves.setStatus_blocked g depId hpend
            have hpcEq := pendingCount_setStatus_blocked g depId hpend
            have hstep : propagateDeps (propagateBlocked fuel) g (depId :: rest) acc
                = propagateDeps (propagateBlocked fuel)
                    (propagateBlocked fuel (setStatus g depId .blocked) depId
                      (acc ++ [depId])).1 rest
                    (propagateBlocked fuel (setStatus g depId .blocked) depId
                      (acc ++ [depId])).2 := by
              rw [propagateDeps_cons]
              simp only [heq]
              rw [if_pos hst]
            obtain ⟨hEv1, hpc1, hDone1, hFlip1⟩ :=
              hpb (setStatus g depId .blocked) depId (acc ++ [depId]) (by omega)
            obtain ⟨hEv2, hpc2, hRest, hFlip2⟩ :=
              ih (propagateBlocked fuel (setStatus g depId .blocked) depId (acc ++ [depId])).1
                (propagateBlocked fuel (setStatus g depId .blocked) depId (acc ++ [depId])).2
                (by omega)
            rw [hstep]
            have hblkd : statusOf (setStatus g depId .blocked) depId = some .blocked := by
              rw [statusOf_setStatus, if_pos rfl, hpend]
              rfl
            refine ⟨(hEv01.trans hEv1).trans hEv2, by omega, ?_, ?_⟩
            · intro d hd
              rcases List.mem_cons.mp hd with rfl | hdrest
              · have hb1 := hEv1.blocked_mono d hblkd
                have hb2 := hEv2.blocked_mono d hb1
                rw [hb2]
                simp
              · exact hRest d hdrest
            · intro n hpn hbn
              by_cases hn : n = depId
              · subst hn
                exact DonePost.mono hEv2 n (hDone1)
              · have hg1 : statusOf (setStatus g depId .blocked) n = statusOf g n := by
                  rw [statusOf_setStatus, if_neg hn]
                have hpn1 : statusOf (setStatus g depId .blocked) n = some .pending := by
                  rw [hg1, hpn]
                rcases hEv1.status_or n with hsame | ⟨-, hblk1⟩
                · exact hFlip2 n (by rw [hsame, hpn1]) hbn
                · exact DonePost.mono hEv2 n (hFlip1 n hpn1 hblk1)
          · have hstep : propagateDeps (propagateBlocked fuel) g (depId :: rest) acc
                = propagateDeps (propagateBlocked fuel) g rest acc := by
              rw [propagateDeps_cons]
              simp only [heq]
              rw [if_neg hst]
            obtain ⟨hEv, hpc, hRest, hFlip⟩ := ih g acc hfuel
            rw [hstep]
            refine ⟨hEv, hpc, ?_, hFlip⟩
            intro d hd
            rcases List.mem_cons.mp hd with rfl | hdrest
            · have : statusOf g d ≠ some .pending := by
                rw [statusOf, heq]
                intro hEq
                apply hst
                simpa using hEq
              rw [hEv.not_pending d this]
              exact this
            · exact hRest d hdrest

/-- Postcondition of the blocking propagation (induction on the fuel):
with sufficient fuel the graph only evolves by pending-to-blocked
flips, the pending count does not grow, every direct dependent of the
failed node ends up out of `pending`, and every node flipped during the
call has fully cascaded. -/
theorem propagateBlocked_post :
    ∀ (fuel : ℕ) (g : TaskGraph) (f : String) (acc : List String),
      pendingCount g < fuel →
        Evolves g (propagateBlocked fuel g f acc).1
          ∧ pendingCount (propagateBlocked fuel g f acc).1 ≤ pendingCount g
          ∧ DonePost (propagateBlocked fuel g f acc).1 f
          ∧ FlippedDone g (propagateBlocked fuel g f acc).1 := by
  intro fuel
  induction fuel with
  | zero =>
      intro g f acc h
      omega
  | succ fuel ih =>
      intro g f acc hfuel
      cases heq : mapGet g.nodes f with
      | none =>
          rw [propagateBlocked_succ]
          simp only [heq]
          refine ⟨Evolves.refl g, le_refl _, ?_, ?_⟩
          · intro nf hget
            rw [heq] at hget
            exact absurd hget (by simp)
          · intro n h1 h2
            rw [h1] at h2
            exact absurd h2 (by simp)
      | some node =>
          have hstep : propagateBlocked (fuel + 1) g f acc
              = propagateDeps (propagateBlocked fuel) g node.dependents acc := by
            rw [propagateBlocked_succ]
            simp only [heq]
          obtain ⟨hEv, hpc, hAll, hFlip⟩ :=
            propagateDeps_post fuel ih node.dependents g acc (by omega)
          rw [hstep]
          refine ⟨hEv, hpc, ?_, hFlip⟩
          intro nf hget d hdmem
          obtain ⟨nd0, hget0, hdep0, hdts0⟩ := hEv.get_back f nf hget
          rw [heq] at hget0
          injection hget0 with hEq
          subst hEq
          exact hAll d (by rw [hdts0]; exact hdmem)

/-- `FlippedDone` composes along evolution. -/
theorem FlippedDone.comp {g1 g2 g3 : TaskGraph} (e12 : Evolves g1 g2) (e23 : Evolves g2 g3)
    (f12 : FlippedDone g1 g2) (f23 : FlippedDone g2 g3) : FlippedDone g1 g3 := by
  intro n hp hb
  rcases e12.status_or n with hsame | ⟨-, hblk⟩
  · exact f23 n (by rw [hsame, hp]) hb
  · exact DonePost.mono e23 n (f12 n hp hblk)

/-- Only pending nodes ever enter the blocked-from relation. -/
theorem BlockedFrom.pending_src {g : TaskGraph} {F : List String} {n : String}
    (h : BlockedFrom g F n) : statusOf g n = some .pending := by
  cases h with
  | base f d nf hF hget hdmem hpend => exact hpend
  | step m d nm hBF hget hdmem hpend => exact hpend

/-- Soundness of the dependent-processing loop, parametrised by the
soundness of the recursive `propagateBlocked` call at the current fuel:
every node flipped to blocked is a still-pending transitive dependent
of the failed set. -/
theorem propagateDeps_sound (g0 : TaskGraph) (F : List String) (fuel : ℕ)
    (hpbS : ∀ (g : TaskGraph) (f : String) (acc : List String),
      pendingCount g < fuel → Evolves g0 g →
        (∀ n, statusOf g0 n = some .pending → statusOf g n = some .blocked →
          BlockedFrom g0 F n) →
        (f ∈ F ∨ BlockedFrom g0 F f) →
        ∀ n, statusOf g0 n = some .pending →
          statusOf (propagateBlocked fuel g f acc).1 n = some .blocked →
            BlockedFrom g0 F n) :
    ∀ (l : List String) (g : TaskGraph) (acc : List String),
      pendingCount g ≤ fuel → Evolves g0 g →
        (∀ n, statusOf g0 n = some .pending → statusOf g n = some .blocked →
          BlockedFrom g0 F n) →
        (∃ f0 nf0, (f0 ∈ F ∨ BlockedFrom g0 F f0) ∧ mapGet g0.nodes f0 = some nf0
          ∧ ∀ d ∈ l, d ∈ nf0.dependents) →
        ∀ n, statusOf g0 n = some .pending →
          statusOf (propagateDeps (propagateBlocked fuel) g l acc).1 n = some .blocked →
            BlockedFrom g0 F n := by
  intro l
  induction l with
  | nil =>
      intro g acc hfuel hEv0 hSnd hex n hpn hbn
      rw [propagateDeps_nil] at hbn
      exact hSnd n hpn hbn
  | cons depId rest ih =>
      intro g acc hfuel hEv0 hSnd hex n hpn hbn
      cases heq : mapGet g.nodes depId with
      | none =>
          have hstep : propagateDeps (propagateBlocked fuel) g (depId :: rest) acc
              = propagateDeps (propagateBlocked fuel) g rest acc := by
            rw [propagateDeps_cons]
            simp only [heq]
          rw [hstep] at hbn
          obtain ⟨f0, nf0, hf0, hget0, hsub⟩ := hex
          exact ih g acc hfuel hEv0 hSnd
            ⟨f0, nf0, hf0, hget0, fun d hd => hsub d (by simp [hd])⟩ n hpn hbn
      | some dn =>
          by_cases hst : dn.status = .pending
          · obtain ⟨f0, nf0, hf0, hget0, hsub⟩ := hex
            have hpend_g : statusOf g depId = some .pending := by
              rw [statusOf, heq]
              simp [hst]
            have hpend_0 : statusOf g0 depId = some .pending := hEv0.pending_back depId hpend_g
            have hBF : BlockedFrom g0 F depId := by
              rcases hf0 with hF | hBF0
              · exact BlockedFrom.base f0 depId nf0 hF hget0 (hsub depId (by simp)) hpend_0
              · exact BlockedFrom.step f0 depId nf0 hBF0 hget0 (hsub depId (by simp)) hpend_0
            have hEv01 : Evolves g (setStatus g depId .blocked) :=
              Evolves.setStatus_blocked g depId hpend_g
            have hpcEq := pendingCount_setStatus_blocked g depId hpend_g
            have hSnd1 : ∀ n', statusOf g0 n' = some .pending →
                statusOf (setStatus g depId .blocked) n' = some .blocked →
                  BlockedFrom g0 F n' := by
              intro n' hpn' hbn'
              by_cases hn' : n' = depId
              · subst hn'
                exact hBF
              · rw [statusOf_setStatus, if_neg hn'] at hbn'
                exact hSnd n' hpn' hbn'
            obtain ⟨hEvr, hpcr, -, -⟩ :=
              propagateBlocked_post fuel (setStatus g depId .blocked) depId (acc ++ [depId])
                (by omega)
            have hSndr := hpbS (setStatus g depId .blocked) depId (acc ++ [depId]) (by omega)
              (hEv0.trans hEv01) hSnd1 (Or.inr hBF)
            have hstep : propagateDeps (propagateBlocked fuel) g (depId :: rest) acc
                = propagateDeps (propagateBlocked fuel)
                    (propagateBlocked fuel (setStatus g depId .blocked) depId
                      (acc ++ [depId])).1 rest
                    (propagateBlocked fuel (setStatus g depId .blocked) depId
                      (acc ++ [depId])).2 := by
              rw [propagateDeps_cons]
              simp only [heq]
              rw [if_pos hst]
            rw [hstep] at hbn
            refine ih _ _ (by omega) ((hEv0.trans hEv01).trans hEvr) hSndr ?_ n hpn hbn
            exact ⟨f0, nf0, hf0, hget0, fun d hd => hsub d (by simp [hd])⟩
          · have hstep : propagateDeps (propagateBlocked fuel) g (depId :: rest) acc
                = propagateDeps (propagateBlocked fuel) g rest acc := by
              rw [propagateDeps_cons]
              simp only [heq]
              rw [if_neg hst]
            rw [hstep] at hbn
            obtain ⟨f0, nf0, hf0, hget0, hsub⟩ := hex
            exact ih g acc hfuel hEv0 hSnd
              ⟨f0, nf0, hf0, hget0, fun d hd => hsub d (by simp [hd])⟩ n hpn hbn

/-- Soundness of the blocking propagation (induction on the fuel):
every node flipped to blocked is a still-pending transitive dependent
of the failed set. -/
theorem propagateBlocked_sound (g0 : TaskGraph) (F : List String) :
    ∀ (fuel : ℕ) (g : TaskGraph) (f : String) (acc : List String),
      pendingCount g < fuel → Evolves g0 g →
        (∀ n, statusOf g0 n = some .pending → statusOf g n = some .blocked →
          BlockedFrom g0 F n) →
        (f ∈ F ∨ BlockedFrom g0 F f) →
        ∀ n, statusOf g0 n = some .pending →
          statusOf (propagateBlocked fuel g f acc).1 n = some .blocked → BlockedFrom g0 F n := by
  intro fuel
  induction fuel with
  | zero =>
      intro g f acc hfuel
      omega
  | succ fuel ih =>
      intro g f acc hfuel hEv0 hSnd hf n hpn hbn
      cases heq : mapGet g.nodes f with
      | none =>
          rw [propagateBlocked_succ] at hbn
          simp only [heq] at hbn
          exact hSnd n hpn hbn
      | some node =>
          have hstep : propagateBlocked (fuel + 1) g f acc
              = propagateDeps (propagateBlocked fuel) g node.dependents acc := by
            rw [propagateBlocked_succ]
            simp only [heq]
          rw [hstep] at hbn
          obtain ⟨nf0, hget0, hdep0, hdts0⟩ := hEv0.get_back f node heq
          refine propagateDeps_sound g0 F fuel ih node.dependents g acc (by omega) hEv0 hSnd
            ⟨f, nf0, hf, hget0, ?_⟩ n hpn hbn
          intro d hd
          rw [hdts0]
          exact hd

/-- Postcondition of the `markBlockedTasks` fold over the failed set. -/
theorem markBlocked_fold (g0 : TaskGraph) (F : List String) :
    ∀ (Fs : List String) (p : TaskGraph × List String),
      (∀ f ∈ Fs, f ∈ F) → Evolves g0 p.1 →
      (∀ n, statusOf g0 n = some .pending → statusOf p.1 n = some .blocked →
        BlockedFrom g0 F n) →
      Evolves p.1 (Fs.foldl
          (fun (q : TaskGraph × List String) failedId =>
            propagateBlocked (pendingCount q.1 + 1) q.1 failedId q.2) p).1
        ∧ (∀ n, statusOf g0 n = some .pending →
            statusOf (Fs.foldl
              (fun (q : TaskGraph × List String) failedId =>
                propagateBlocked (pendingCount q.1 + 1) q.1 failedId q.2) p).1 n
              = some .blocked → BlockedFrom g0 F n)
        ∧ (∀ f ∈ Fs, DonePost (Fs.foldl
            (fun (q : TaskGraph × List String) failedId =>
              propagateBlocked (pendingCount q.1 + 1) q.1 failedId q.2) p).1 f)
        ∧ FlippedDone p.1 (Fs.foldl
            (fun (q : TaskGraph × List String) failedId =>
              propagateBlocked (pendingCount q.1 + 1) q.1 failedId q.2) p).1 := by
  intro Fs
  induction Fs with
  | nil =>
      intro p hsub hEv0 hSnd
      simp only [List.foldl_nil]
      refine ⟨Evolves.refl p.1, hSnd, by simp, ?_⟩
      intro n h1 h2
      rw [h1] at h2
      exact absurd h2 (by simp)
  | cons f Fs ih =>
      intro p hsub hEv0 hSnd
      obtain ⟨hEvq, hpcq, hDoneq, hFlipq⟩ :=
        propagateBlocked_post (pendingCount p.1 + 1) p.1 f p.2 (by omega)
      have hSndq := propagateBlocked_sound g0 F (pendingCount p.1 + 1) p.1 f p.2 (by omega)
        hEv0 hSnd (Or.inl (hsub f (by simp)))
      obtain ⟨hEv', hSnd', hDone', hFlip'⟩ :=
        ih (propagateBlocked (pendingCount p.1 + 1) p.1 f p.2)
          (fun f' hf' => hsub f' (by simp [hf'])) (hEv0.trans hEvq) hSndq
      rw [List.foldl_cons]
      refine ⟨hEvq.trans hEv', hSnd', ?_, FlippedDone.comp hEvq hEv' hFlipq hFlip'⟩
      intro f' hf'
      rcases List.mem_cons.mp hf' with rfl | hmem
      · exact DonePost.mono hEv' f' hDoneq
      · exact hDone' f' hmem

/-- C5: `markBlockedTasks(F)` sets to blocked exactly the still-pending
transitive dependents of `F` (cascading through each newly blocked
node's own dependents) and leaves every non-pending node untouched; in
particular on the chain `A → B → C` with `B`, `C` pending,
`markBlockedTasks({A})` blocks both `B` and `C`. -/
theorem markBlockedTasks_spec :
    (∀ (g : TaskGraph) (F : List String),
      (∀ n, statusOf (markBlockedTasks g F).1 n = some .blocked ↔
          (statusOf g n = some .blocked ∨ BlockedFrom g F n))
        ∧ ∀ n s, statusOf g n = some s → s ≠ .pending →
            statusOf (markBlockedTasks g F).1 n = some s)
      ∧ statusOf (markBlockedTasks gChain ["A"]).1 "B" = some .blocked
      ∧ statusOf (markBlockedTasks gChain ["A"]).1 "C" = some .blocked := by
  have main : ∀ (g : TaskGraph) (F : List String),
      (∀ n, statusOf (markBlockedTasks g F).1 n = some .blocked ↔
          (statusOf g n = some .blocked ∨ BlockedFrom g F n))
        ∧ ∀ n s, statusOf g n = some s → s ≠ .pending →
            statusOf (markBlockedTasks g F).1 n = some s := by
    intro g F
    have hdef : (markBlockedTasks g F).1 = (F.foldl
        (fun (q : TaskGraph × List String) failedId =>
          propagateBlocked (pendingCount q.1 + 1) q.1 failedId q.2) (g, [])).1 := rfl
    obtain ⟨hEv, hSnd, hDone, hFlip⟩ := markBlocked_fold g F F ((g, []) : TaskGraph × List String)
      (fun f hf => hf) (Evolves.refl g)
      (by
        intro n h1 h2
        rw [h1] at h2
        exact absurd h2 (by simp))
    rw [hdef]
    constructor
    · intro n
      constructor
      · intro hbn
        rcases hEv.status_or n with hsame | ⟨hp, -⟩
        · left
          rw [← hsame]
          exact hbn
        · right
          exact hSnd n hp hbn
      · rintro (hb | hBF)
        · exact hEv.blocked_mono n hb
        · induction hBF with
          | base f d nf hF hget hdmem hpend =>
              obtain ⟨nf', hget', hdep', hdts'⟩ := hEv.get_fwd f nf hget
              have hnp := hDone f hF nf' hget' d (by rw [hdts']; exact hdmem)
              rcases hEv.status_or d with hsame | ⟨-, hb⟩
              · exact absurd (by rw [hsame, hpend]) hnp
              · exact hb
          | step m d nm hBF hget hdmem hpend ihm =>
              have hpm : statusOf g m = some .pending := hBF.pending_src
              have hDm : DonePost _ m := hFlip m hpm ihm
              obtain ⟨nm', hget', hdep', hdts'⟩ := hEv.get_fwd m nm hget
              have hnp := hDm nm' hget' d (by rw [hdts']; exact hdmem)
              rcases hEv.status_or d with hsame | ⟨-, hb⟩
              · exact absurd (by rw [hsame, hpend]) hnp
              · exact hb
    · intro n s hs hsp
      have hnpend : statusOf g n ≠ some .pending := by
        rw [hs]
        intro hc
        injection hc with hc2
        exact hsp hc2
      rw [hEv.not_pending n hnpend]
      exact hs
  have hB : BlockedFrom gChain ["A"] "B" :=
    BlockedFrom.base "A" "B"
      { taskId := "A", dependencies := [], dependents := ["B"], status := .pending }
      (by decide) (by decide) (by decide) (by decide)
  have hC : BlockedFrom gChain ["A"] "C" :=
    BlockedFrom.step "B" "C"
      { taskId := "B", dependencies := ["A"], dependents := ["C"], status := .pending }
      hB (by decide) (by decide) (by decide)
  exact ⟨main, ((main gChain ["A"]).1 "B").mpr (Or.inr hB),
    ((main gChain ["A"]).1 "C").mpr (Or.inr hC)⟩

/-- Witness for C5: on a concrete graph with a completed node, the
untouched-statuses conjunct applies with its hypotheses discharged. -/
theorem markBlockedTasks_spec_witness :
    (statusOf (markCompleted gChain "A") "A" = some TStatus.completed
        ∧ TStatus.completed ≠ TStatus.pending)
      ∧ statusOf (markBlockedTasks (markCompleted gChain "A") ["A"]).1 "A"
          = some TStatus.completed :=
  ⟨⟨by decide, by decide⟩,
    (markBlockedTasks_spec.1 (markCompleted gChain "A") ["A"]).2 "A" TStatus.completed
      (by decide) (by decide)⟩

/-- C4 (amended): the graph enforces the legal transition relation only
in `markBlockedTasks`, which never changes a node's status except from
`pending` to `blocked`; `markCompleted`, `markFailed` and
`markExecuting` overwrite the target's status unconditionally, whatever
its current value (the orchestrator itself performs `pending →
completed` and `pending → failed` this way when restoring a
checkpoint). -/
theorem mark_ops_overwrite :
    (∀ (g : TaskGraph) (id n : String),
        statusOf (markCompleted g id) n =
          if n = id then (statusOf g n).map (fun _ => TStatus.completed) else statusOf g n)
      ∧ (∀ (g : TaskGraph) (id n : String),
        statusOf (markFailed g id) n =
          if n = id then (statusOf g n).map (fun _ => TStatus.failed) else statusOf g n)
      ∧ (∀ (g : TaskGraph) (id n : String),
        statusOf (markExecuting g id) n =
          if n = id then (statusOf g n).map (fun _ => TStatus.executing) else statusOf g n)
      ∧ (∀ (g : TaskGraph) (F : List String) (n : String),
        statusOf (markBlockedTasks g F).1 n = statusOf g n
          ∨ (statusOf g n = some .pending
              ∧ statusOf (markBlockedTasks g F).1 n = some .blocked)) := by
  refine ⟨?_, ?_, ?_, ?_⟩
  · intro g id n
    rw [markCompleted, statusOf_setStatus]
  · intro g id n
    rw [markFailed, statusOf_setStatus]
  · intro g id n
    rw [markExecuting, statusOf_setStatus]
  · intro g F n
    obtain ⟨hEv, -, -, -⟩ := markBlocked_fold g F F ((g, []) : TaskGraph × List String)
      (fun f hf => hf) (Evolves.refl g)
      (by
        intro n' h1 h2
        rw [h1] at h2
        exact absurd h2 (by simp))
    have hdef : (markBlockedTasks g F).1 = (F.foldl
        (fun (q : TaskGraph × List String) failedId =>
          propagateBlocked (pendingCount q.1 + 1) q.1 failedId q.2) (g, [])).1 := rfl
    rw [hdef]
    exact hEv.status_or n

end BlockingLemmas

section RetryLemmas

theorem retryGo_zero (exec : String → ℕ → ExecOutcome) (task : Task) (maxRetries : ℕ)
    (lastError : Option String) :
    retryGo exec task maxRetries 0 lastError =
      ({ taskId := task.id
         success := false
         error := some
           { code := "EXECUTION_ERROR"
             message := lastError.getD "Unknown error after retries"
             retryable := false }
         tokensUsed := ⟨0, 0, 0⟩ }, []) := rfl

theorem retryGo_succ (exec : String → ℕ → ExecOutcome) (task : Task)
    (maxRetries remaining : ℕ) (lastError : Option String) :
    retryGo exec task maxRetries (remaining + 1) lastError =
      match exec task.id (maxRetries - (remaining + 1)) with
      | .ok result =>
          if result.success = false ∧ errRetryable result = true ∧ 0 < remaining then
            ((retryGo exec task maxRetries remaining lastError).1,
              [LoopEvent.permit task.id (maxRetries - (remaining + 1)),
               LoopEvent.execute task.id (maxRetries - (remaining + 1))]
                ++ [LoopEvent.backoff task.id (maxRetries - (remaining + 1))]
                ++ (retryGo exec task maxRetries remaining lastError).2)
          else (result, [LoopEvent.permit task.id (maxRetries - (remaining + 1)),
                         LoopEvent.execute task.id (maxRetries - (remaining + 1))])
      | .thrown msg =>
          if 0 < remaining then
            ((retryGo exec task maxRetries remaining (some msg)).1,
              [LoopEvent.permit task.id (maxRetries - (remaining + 1)),
               LoopEvent.execute task.id (maxRetries - (remaining + 1))]
                ++ [LoopEvent.backoff task.id (maxRetries - (remaining + 1))]
                ++ (retryGo exec task maxRetries remaining (some msg)).2)
          else ((retryGo exec task maxRetries remaining (some msg)).1,
                [LoopEvent.permit task.id (maxRetries - (remaining + 1)),
                 LoopEvent.execute task.id (maxRetries - (remaining + 1))]
                  ++ (retryGo exec task maxRetries remaining (some msg)).2) := rfl

theorem attemptTraceFrom_one (tid : String) (s : ℕ) :
    attemptTraceFrom tid s 1 = [LoopEvent.permit tid s, LoopEvent.execute tid s] := rfl

theorem attemptTraceFrom_succ (tid : String) (s n : ℕ) (h : 1 ≤ n) :
    attemptTraceFrom tid s (n + 1)
      = [LoopEvent.permit tid s, LoopEvent.execute tid s, LoopEvent.backoff tid s]
          ++ attemptTraceFrom tid (s + 1) n := by
  unfold attemptTraceFrom
  rw [List.range_succ_eq_map]
  simp only [List.map_cons, List.map_map, List.flatten_cons, Nat.add_zero]
  rw [if_pos (by omega : 0 + 1 < n + 1)]
  have hmap : (List.range n).map
      ((fun k => [LoopEvent.permit tid (s + k), LoopEvent.execute tid (s + k)]
        ++ if k + 1 < n + 1 then [LoopEvent.backoff tid (s + k)] else []) ∘ Nat.succ)
      = (List.range n).map (fun k =>
          [LoopEvent.permit tid (s + 1 + k), LoopEvent.execute tid (s + 1 + k)]
            ++ if k + 1 < n then [LoopEvent.backoff tid (s + 1 + k)] else []) := by
    apply List.map_congr_left
    intro k hk
    simp only [Function.comp_apply]
    have h1 : s + Nat.succ k = s + 1 + k := by omega
    rw [h1]
    by_cases hc : k + 1 < n
    · rw [if_pos (by omega : Nat.succ k + 1 < n + 1), if_pos hc]
    · rw [if_neg (by omega : ¬ Nat.succ k + 1 < n + 1), if_neg hc]
  rw [hmap]
  rfl

theorem attemptTraceFrom_zero_start (tid : String) (n : ℕ) :
    attemptTraceFrom tid 0 n = attemptTrace tid n := by
  unfold attemptTraceFrom attemptTrace
  simp only [Nat.zero_add]

/-- Main analysis of the retry loop body: with at least one attempt
remaining, the loop makes `n` attempts for some `1 ≤ n ≤ remaining`,
its event trace is exactly `n` permit/execute pairs with a backoff
after each non-final attempt, every non-final attempt failed with a
retryable error (or threw), and the loop only stops early when the
last attempt did not fail retryably. -/
theorem retryGo_trace (exec : String → ℕ → ExecOutcome) (task : Task) (maxRetries : ℕ) :
    ∀ (remaining : ℕ) (lastError : Option String),
      0 < remaining → remaining ≤ maxRetries →
      ∃ n, 1 ≤ n ∧ n ≤ remaining
        ∧ (retryGo exec task maxRetries remaining lastError).2
            = attemptTraceFrom task.id (maxRetries - remaining) n
        ∧ (∀ k, k + 1 < n → failedRetryable (exec task.id (maxRetries - remaining + k)))
        ∧ (n < remaining →
            ¬ failedRetryable (exec task.id (maxRetries - remaining + (n - 1)))) := by
  intro remaining
  induction remaining with
  | zero =>
      intro lastError hpos hle
      omega
  | succ remaining ih =>
      intro lastError hpos hle
      cases hex : exec task.id (maxRetries - (remaining + 1)) with
      | ok result =>
          by_cases hcond : result.success = false ∧ errRetryable result = true ∧ 0 < remaining
          · obtain ⟨n, hn1, hn2, htr, hfail, hstop⟩ := ih lastError hcond.2.2 (by omega)
            have harith : maxRetries - remaining = maxRetries - (remaining + 1) + 1 := by omega
            rw [harith] at htr
            refine ⟨n + 1, by omega, by omega, ?_, ?_, ?_⟩
            · rw [retryGo_succ]
              simp only [hex]
              rw [if_pos hcond, htr,
                attemptTraceFrom_succ task.id (maxRetries - (remaining + 1)) n hn1]
              rfl
            · intro k hk
              cases k with
              | zero =>
                  simp only [Nat.add_zero]
                  rw [hex]
                  simp only [failedRetryable]
                  exact ⟨hcond.1, hcond.2.1⟩
              | succ k' =>
                  have e1 : maxRetries - (remaining + 1) + (k' + 1)
                      = maxRetries - remaining + k' := by omega
                  rw [e1]
                  exact hfail k' (by omega)
            · intro hlt
              have e2 : maxRetries - (remaining + 1) + (n + 1 - 1)
                  = maxRetries - remaining + (n - 1) := by omega
              rw [e2]
              exact hstop (by omega)
          · refine ⟨1, le_refl 1, by omega, ?_, ?_, ?_⟩
            · rw [retryGo_succ]
              simp only [hex]
              rw [if_neg hcond, attemptTraceFrom_one]
            · intro k hk
              omega
            · intro hlt hfr
              have e1 : maxRetries - (remaining + 1) + (1 - 1)
                  = maxRetries - (remaining + 1) := by omega
              rw [e1, hex] at hfr
              simp only [failedRetryable] at hfr
              exact hcond ⟨hfr.1, hfr.2, by omega⟩
      | thrown msg =>
          by_cases hrem : 0 < remaining
          · obtain ⟨n, hn1, hn2, htr, hfail, hstop⟩ := ih (some msg) hrem (by omega)
            have harith : maxRetries - remaining = maxRetries - (remaining + 1) + 1 := by omega
            rw [harith] at htr
            refine ⟨n + 1, by omega, by omega, ?_, ?_, ?_⟩
            · rw [retryGo_succ]
              simp only [hex]
              rw [if_pos hrem, htr,
                attemptTraceFrom_succ task.id (maxRetries - (remaining + 1)) n hn1]
              rfl
            · intro k hk
              cases k with
              | zero =>
                  simp only [Nat.add_zero]
                  rw [hex]
                  simp only [failedRetryable]
              | succ k' =>
                  have e1 : maxRetries - (remaining + 1) + (k' + 1)
                      = maxRetries - remaining + k' := by omega
                  rw [e1]
                  exact hfail k' (by omega)
            · intro hlt
              have e2 : maxRetries - (remaining + 1) + (n + 1 - 1)
                  = maxRetries - remaining + (n - 1) := by omega
              rw [e2]
              exact hstop (by omega)
          · have h0 : remaining = 0 := by omega
            subst h0
            refine ⟨1, le_refl 1, le_refl 1, ?_, ?_, ?_⟩
            · rw [retryGo_succ]
              simp only [hex]
              rw [if_neg hrem, retryGo_zero, attemptTraceFrom_one]
              rfl
            · intro k hk
              omega
            · intro hlt
              exact absurd hlt (by omega)

/-- The retry loop never emits a checkpoint event. -/
theorem checkpoint_not_in_retryGo (exec : String → ℕ → ExecOutcome) (task : Task)
    (maxRetries : ℕ) :
    ∀ (remaining : ℕ) (lastError : Option String) (B : List String) (cp : CheckpointData),
      LoopEvent.checkpoint B cp ∉ (retryGo exec task maxRetries remaining lastError).2 := by
  intro remaining
  induction remaining with
  | zero =>
      intro lastError B cp
      rw [retryGo_zero]
      simp
  | succ remaining ih =>
      intro lastError B cp
      cases hex : exec task.id (maxRetries - (remaining + 1)) with
      | ok result =>
          rw [retryGo_succ]
          simp only [hex]
          by_cases hc : result.success = false ∧ errRetryable result = true ∧ 0 < remaining
          · rw [if_pos hc]
            simp only [List.mem_append, not_or]
            exact ⟨⟨by simp, by simp⟩, ih lastError B cp⟩
          · rw [if_neg hc]
            simp
      | thrown msg =>
          rw [retryGo_succ]
          simp only [hex]
          by_cases hr : 0 < remaining
          · rw [if_pos hr]
            simp only [List.mem_append, not_or]
            exact ⟨⟨by simp, by simp⟩, ih (some msg) B cp⟩
          · rw [if_neg hr]
            simp only [List.mem_append, not_or]
            exact ⟨by simp, ih (some msg) B cp⟩

/-- C3: every task goes through the per-task retry loop of up to
`maxRetries` attempts: the produced event trace is exactly `n ≤
maxRetries` repetitions of a rate-limit permit followed by an
execution, with a backoff (`handle429Error`) after each non-final
attempt; every non-final attempt failed with a retryable error, and
the loop stops before exhausting `maxRetries` only when the last
attempt did not fail retryably.  Concretely, on the graph `A → B`
where `A` always fails with a retryable rate-limit error and
`maxRetries = 3`, `A` is executed 3 times and the final status counts
are `{completed := 0, failed := 1, blocked := 1, pending := 0}`. -/
theorem batch_retry_semantics :
    (∀ (exec : String → ℕ → ExecOutcome) (task : Task) (maxRetries : ℕ),
        0 < maxRetries →
        ∃ n, 1 ≤ n ∧ n ≤ maxRetries
          ∧ (executeWithRetry exec maxRetries task).2 = attemptTrace task.id n
          ∧ (∀ k, k + 1 < n → failedRetryable (exec task.id k))
          ∧ (n < maxRetries → ¬ failedRetryable (exec task.id (n - 1))))
      ∧ execCount runAB.2.2 "A" = 3
      ∧ statusCount runAB.2.1 .completed = 0
      ∧ statusCount runAB.2.1 .failed = 1
      ∧ statusCount runAB.2.1 .blocked = 1
      ∧ statusCount runAB.2.1 .pending = 0 := by
  refine ⟨?_, by decide, by decide, by decide, by decide, by decide⟩
  intro exec task maxRetries hpos
  obtain ⟨n, h1, h2, htr, hfail, hstop⟩ :=
    retryGo_trace exec task maxRetries maxRetries none hpos (le_refl _)
  have hz : maxRetries - maxRetries = 0 := Nat.sub_self maxRetries
  refine ⟨n, h1, h2, ?_, ?_, ?_⟩
  · rw [executeWithRetry, htr, hz, attemptTraceFrom_zero_start]
  · intro k hk
    have hx := hfail k hk
    have e1 : maxRetries - maxRetries + k = k := by omega
    rwa [e1] at hx
  · intro hlt
    have hx := hstop hlt
    have e2 : maxRetries - maxRetries + (n - 1) = n - 1 := by omega
    rwa [e2] at hx

/-- Witness for C3: the retry-shape conjunct applied to the always-429
executor at `maxRetries = 3`. -/
theorem batch_retry_semantics_witness :
    0 < 3
      ∧ ∃ n, 1 ≤ n ∧ n ≤ 3
          ∧ (executeWithRetry execAlways429 3 taskA).2 = attemptTrace taskA.id n
          ∧ (∀ k, k + 1 < n → failedRetryable (execAlways429 taskA.id k))
          ∧ (n < 3 → ¬ failedRetryable (execAlways429 taskA.id (n - 1))) :=
  ⟨by decide, batch_retry_semantics.1 execAlways429 taskA 3 (by decide)⟩

end RetryLemmas

section LoopLemmas

theorem foldl_setAdd_nodup (l : List String) :
    ∀ acc : List String, acc.Nodup → (l.foldl setAdd acc).Nodup := by
  induction l with
  | nil =>
      intro acc h
      simpa using h
  | cons a rest ih =>
      intro acc h
      rw [List.foldl_cons]
      exact ih _ (setAdd_nodup acc a h)

theorem mem_keys_mapSet_self {α : Type} (m : List (String × α)) (k : String) (v : α) :
    k ∈ (mapSet m k v).map Prod.fst := by
  induction m with
  | nil => simp [mapSet]
  | cons p rest ih =>
      unfold mapSet
      by_cases h : p.1 = k
      · rw [if_pos (by simpa using h)]
        simp
      · rw [if_neg (by simpa using h)]
        simp only [List.map_cons, List.mem_cons]
        exact Or.inr ih

theorem mem_keys_mapSet_mono {α : Type} (m : List (String × α)) (k : String) (v : α)
    (tid : String) (h : tid ∈ m.map Prod.fst) : tid ∈ (mapSet m k v).map Prod.fst := by
  induction m with
  | nil => simp at h
  | cons p rest ih =>
      unfold mapSet
      by_cases hpk : p.1 = k
      · rw [if_pos (by simpa using hpk)]
        simp only [List.map_cons, List.mem_cons] at h ⊢
        rcases h with h | h
        · exact Or.inl (h.trans hpk)
        · exact Or.inr h
      · rw [if_neg (by simpa using hpk)]
        simp only [List.map_cons, List.mem_cons] at h ⊢
        rcases h with h | h
        · exact Or.inl h
        · exact Or.inr (ih h)

/-- `markBlockedTasks` only ever flips a pending node to blocked; every
other status is left exactly as it was. -/
theorem markBlockedTasks_status_or (g : TaskGraph) (F : List String) (n : String) :
    statusOf (markBlockedTasks g F).1 n = statusOf g n
      ∨ (statusOf g n = some .pending
          ∧ statusOf (markBlockedTasks g F).1 n = some .blocked) := by
  obtain ⟨hEv, -, -, -⟩ := markBlocked_fold g F F ((g, []) : TaskGraph × List String)
    (fun f hf => hf) (Evolves.refl g)
    (by
      intro n' h1 h2
      rw [h1] at h2
      exact absurd h2 (by simp))
  have hdef : (markBlockedTasks g F).1 = (F.foldl
      (fun (q : TaskGraph × List String) failedId =>
        propagateBlocked (pendingCount q.1 + 1) q.1 failedId q.2) (g, [])).1 := rfl
  rw [hdef]
  exact hEv.status_or n

/-- Per-result facts of one reconciliation step of the batch loop. -/
theorem reconcile_step (st : ExecutionState) (g : TaskGraph) (task : Task)
    (result : ExecutionResult) :
    (st.inProgressTasks.Nodup → (reconcileResult st g task result).1.inProgressTasks.Nodup)
      ∧ (∀ tid, tid ∈ st.completedTasks →
          tid ∈ (reconcileResult st g task result).1.completedTasks)
      ∧ (∀ tid, tid ∈ st.failedTasks.map Prod.fst →
          tid ∈ (reconcileResult st g task result).1.failedTasks.map Prod.fst)
      ∧ (∀ tid, tid ∉ st.inProgressTasks →
          tid ∉ (reconcileResult st g task result).1.inProgressTasks)
      ∧ (st.inProgressTasks.Nodup →
          task.id ∉ (reconcileResult st g task result).1.inProgressTasks)
      ∧ (task.id ∈ (reconcileResult st g task result).1.completedTasks
          ∨ task.id ∈ (reconcileResult st g task result).1.failedTasks.map Prod.fst)
      ∧ (∀ n, statusOf g n = some .completed ∨ statusOf g n = some .failed →
          statusOf (reconcileResult st g task result).2 n = some .completed
            ∨ statusOf (reconcileResult st g task result).2 n = some .failed)
      ∧ (∀ n, (statusOf g n).isSome → (statusOf (reconcileResult st g task result).2 n).isSome)
      ∧ ((statusOf g task.id).isSome →
          statusOf (reconcileResult st g task result).2 task.id = some .completed
            ∨ statusOf (reconcileResult st g task result).2 task.id = some .failed) := by
  unfold reconcileResult
  by_cases hs : result.success = true
  · rw [if_pos hs]
    dsimp only
    refine ⟨?_, ?_, ?_, ?_, ?_, ?_, ?_, ?_, ?_⟩
    · intro h
      exact h.erase task.id
    · intro tid h
      rw [mem_setAdd]
      exact Or.inl h
    · intro tid h
      exact h
    · intro tid h hmem
      exact h (List.mem_of_mem_erase hmem)
    · intro h hmem
      exact ((List.Nodup.mem_erase_iff h).mp hmem).1 rfl
    · left
      rw [mem_setAdd]
      exact Or.inr rfl
    · intro n hn
      rw [markCompleted, statusOf_setStatus]
      by_cases hn' : n = task.id
      · rw [if_pos hn']
        rcases hn with h | h <;> rw [h] <;> exact Or.inl rfl
      · rw [if_neg hn']
        exact hn
    · intro n hsome
      rw [markCompleted, statusOf_setStatus]
      by_cases hn' : n = task.id
      · rw [if_pos hn']
        simpa using hsome
      · rw [if_neg hn']
        exact hsome
    · intro hsome
      rw [markCompleted, statusOf_setStatus, if_pos rfl]
      obtain ⟨v, hv⟩ := Option.isSome_iff_exists.mp hsome
      rw [hv]
      exact Or.inl rfl
  · rw [if_neg hs]
    dsimp only
    refine ⟨?_, ?_, ?_, ?_, ?_, ?_, ?_, ?_, ?_⟩
    · intro h
      exact h.erase task.id
    · intro tid h
      exact h
    · intro tid h
      exact mem_keys_mapSet_mono st.failedTasks task.id _ tid h
    · intro tid h hmem
      exact h (List.mem_of_mem_erase hmem)
    · intro h hmem
      exact ((List.Nodup.mem_erase_iff h).mp hmem).1 rfl
    · right
      exact mem_keys_mapSet_self st.failedTasks task.id _
    · intro n hn
      rcases markBlockedTasks_status_or (markFailed g task.id) [task.id] n with heq | ⟨hp, hb⟩
      · rw [heq, markFailed, statusOf_setStatus]
        by_cases hn' : n = task.id
        · rw [if_pos hn']
          rcases hn with h | h <;> rw [h] <;> exact Or.inr rfl
        · rw [if_neg hn']
          exact hn
      · exfalso
        rw [markFailed, statusOf_setStatus] at hp
        by_cases hn' : n = task.id
        · rw [if_pos hn'] at hp
          rcases hn with h | h <;> rw [h] at hp <;> simp at hp
        · rw [if_neg hn'] at hp
          rcases hn with h | h <;> rw [h] at hp <;> simp at hp
    · intro n hsome
      rcases markBlockedTasks_status_or (markFailed g task.id) [task.id] n with heq | ⟨-, hb⟩
      · rw [heq, markFailed, statusOf_setStatus]
        by_cases hn' : n = task.id
        · rw [if_pos hn']
          simpa using hsome
        · rw [if_neg hn']
          exact hsome
      · rw [hb]
        rfl
    · intro hsome
      obtain ⟨v, hv⟩ := Option.isSome_iff_exists.mp hsome
      have hfl : statusOf (markFailed g task.id) task.id = some .failed := by
        rw [markFailed, statusOf_setStatus, if_pos rfl, hv]
        rfl
      rcases markBlockedTasks_status_or (markFailed g task.id) [task.id] task.id
        with heq | ⟨hp, hb⟩
      · right
        rw [heq]
        exact hfl
      · rw [hfl] at hp
        exact absurd hp (by simp)

/-- The reconciliation fold over a settled batch establishes
`ReconcileInv`. -/
theorem reconcile_fold :
    ∀ (settled : List (Task × (ExecutionResult × List LoopEvent)))
      (st : ExecutionState) (g : TaskGraph),
      st.inProgressTasks.Nodup →
      ReconcileInv st g settled
        (settled.foldl (fun (acc : ExecutionState × TaskGraph) p =>
          reconcileResult acc.1 acc.2 p.1 p.2.1) (st, g)) := by
  intro settled
  induction settled with
  | nil =>
      intro st g hnd
      exact ⟨hnd, fun tid h => h, fun tid h => h, fun tid h => h, by simp,
        fun n h => h, fun n h => h, by simp⟩
  | cons p rest ih =>
      intro st g hnd
      obtain ⟨sA, sB, sC, sD, sE, sF, sG, sH, sI⟩ := reconcile_step st g p.1 p.2.1
      obtain ⟨h1, h2, h3, h4, h5, h6, h7, h8⟩ :=
        ih (reconcileResult st g p.1 p.2.1).1 (reconcileResult st g p.1 p.2.1).2 (sA hnd)
      refine ⟨h1, ?_, ?_, ?_, ?_, ?_, ?_, ?_⟩
      · intro tid h
        exact h2 tid (sB tid h)
      · intro tid h
        exact h3 tid (sC tid h)
      · intro tid h
        exact h4 tid (sD tid h)
      · intro p' hp'
        rcases List.mem_cons.mp hp' with rfl | hmem
        · constructor
          · rcases sF with hc | hf
            · exact Or.inl (h2 _ hc)
            · exact Or.inr (h3 _ hf)
          · exact h4 _ (sE hnd)
        · exact h5 p' hmem
      · intro n h
        exact h6 n (sG n h)
      · intro n h
        exact h7 n (sH n h)
      · intro p' hp' hsome
        rcases List.mem_cons.mp hp' with rfl | hmem
        · exact h6 _ (sI hsome)
        · exact h8 p' hmem (sH _ hsome)

/-- A checkpoint event emitted by `runBatch` is the single final one:
its batch is the full dispatched batch and its data is the state after
the whole reconciliation fold. -/
theorem runBatch_events (exec : String → ℕ → ExecOutcome) (maxRetries : ℕ)
    (st : ExecutionState) (g : TaskGraph) (batchTasks : List Task) (B : List String)
    (cp : CheckpointData)
    (hmem : LoopEvent.checkpoint B cp ∈ (runBatch exec maxRetries st g batchTasks).2.2) :
    B = batchTasks.map Task.id
      ∧ cp = stateToData (runBatch exec maxRetries st g batchTasks).1 := by
  unfold runBatch at hmem
  dsimp only at hmem
  rw [List.mem_append] at hmem
  rcases hmem with hmem | hmem
  · exfalso
    rw [List.mem_flatten] at hmem
    obtain ⟨l, hl, hml⟩ := hmem
    rw [List.mem_map] at hl
    obtain ⟨p, hp, rfl⟩ := hl
    rw [List.mem_map] at hp
    obtain ⟨t, ht, rfl⟩ := hp
    exact checkpoint_not_in_retryGo exec t maxRetries maxRetries none B cp hml
  · rw [List.mem_singleton] at hmem
    injection hmem with hB hcp
    exact ⟨hB, hcp⟩

/-- After `runBatch` the persisted checkpoint records every batch task
as completed or failed and clears it from the in-progress set. -/
theorem runBatch_checkpoint_sound (exec : String → ℕ → ExecOutcome) (maxRetries : ℕ)
    (st : ExecutionState) (g : TaskGraph) (batchTasks : List Task)
    (hnd : st.inProgressTasks.Nodup) :
    (runBatch exec maxRetries st g batchTasks).1.inProgressTasks.Nodup
      ∧ ∀ B cp, LoopEvent.checkpoint B cp ∈ (runBatch exec maxRetries st g batchTasks).2.2 →
          ∀ tid ∈ B, (tid ∈ cp.completedTasks ∨ tid ∈ cp.failedTasks.map Prod.fst)
            ∧ tid ∉ cp.inProgressTasks := by
  constructor
  · exact (reconcile_fold (batchTasks.map
      (fun t => (t, executeWithRetry exec maxRetries t))) st g hnd).1
  · intro B cp hmem
    obtain ⟨hB, hcp⟩ := runBatch_events exec maxRetries st g batchTasks B cp hmem
    subst hB
    subst hcp
    intro tid htid
    obtain ⟨t, ht, rfl⟩ := List.mem_map.mp htid
    exact (reconcile_fold (batchTasks.map
        (fun t => (t, executeWithRetry exec maxRetries t))) st g hnd).2.2.2.2.1
      (t, executeWithRetry exec maxRetries t) (List.mem_map_of_mem _ ht)

/-- After `runBatch` every batch task's node in the graph is in a
terminal (completed or failed) status. -/
theorem runBatch_statuses (exec : String → ℕ → ExecOutcome) (maxRetries : ℕ)
    (st : ExecutionState) (g : TaskGraph) (batchTasks : List Task)
    (hnd : st.inProgressTasks.Nodup)
    (hex : ∀ t ∈ batchTasks, (statusOf g t.id).isSome) :
    ∀ t ∈ batchTasks,
      statusOf (runBatch exec maxRetries st g batchTasks).2.1 t.id = some .completed
        ∨ statusOf (runBatch exec maxRetries st g batchTasks).2.1 t.id = some .failed := by
  intro t ht
  exact (reconcile_fold (batchTasks.map
      (fun t => (t, executeWithRetry exec maxRetries t))) st g hnd).2.2.2.2.2.2.2
    (t, executeWithRetry exec maxRetries t) (List.mem_map_of_mem _ ht) (hex t ht)

theorem execLoop_zero (exec : String → ℕ → ExecOutcome) (maxRetries maxParallel : ℕ)
    (st : ExecutionState) (g : TaskGraph) :
    execLoop exec maxRetries maxParallel 0 st g = (st, g, []) := rfl

theorem execLoop_succ (exec : String → ℕ → ExecOutcome) (maxRetries maxParallel fuel : ℕ)
    (st : ExecutionState) (g : TaskGraph) :
    execLoop exec maxRetries maxParallel (fuel + 1) st g =
      if isComplete g then (st, g, [])
      else
        let ready := getReadyTasks g st.completedTasks
        if ready.isEmpty then (st, g, [])
        else
          let batchIds := getParallelCandidates g ready maxParallel
          let batchTasks := batchIds.filterMap (getTask g)
          let g2 := batchIds.foldl markExecuting g
          let st2 := { st with inProgressTasks := batchIds.foldl setAdd st.inProgressTasks }
          let r := runBatch exec maxRetries st2 g2 batchTasks
          let rest := execLoop exec maxRetries maxParallel fuel r.1 r.2.1
          (rest.1, rest.2.1, r.2.2 ++ rest.2.2) := rfl

/-- Every checkpoint event of the main loop satisfies the per-batch
soundness property. -/
theorem execLoop_checkpoints (exec : String → ℕ → ExecOutcome) (maxRetries maxParallel : ℕ) :
    ∀ (fuel : ℕ) (st : ExecutionState) (g : TaskGraph),
      st.inProgressTasks.Nodup →
      ∀ B cp, LoopEvent.checkpoint B cp
          ∈ (execLoop exec maxRetries maxParallel fuel st g).2.2 →
        ∀ tid ∈ B, (tid ∈ cp.completedTasks ∨ tid ∈ cp.failedTasks.map Prod.fst)
          ∧ tid ∉ cp.inProgressTasks := by
  intro fuel
  induction fuel with
  | zero =>
      intro st g hnd B cp hmem
      rw [execLoop_zero] at hmem
      simp at hmem
  | succ fuel ih =>
      intro st g hnd B cp hmem
      rw [execLoop_succ] at hmem
      by_cases hc : isComplete g = true
      · rw [if_pos hc] at hmem
        simp at hmem
      · rw [if_neg hc] at hmem
        dsimp only at hmem
        by_cases hr : (getReadyTasks g st.completedTasks).isEmpty = true
        · rw [if_pos hr] at hmem
          simp at hmem
        · rw [if_neg hr] at hmem
          dsimp only at hmem
          rw [List.mem_append] at hmem
          rcases hmem with hmem | hmem
          · exact (runBatch_checkpoint_sound exec maxRetries _ _ _
              (foldl_setAdd_nodup _ _ hnd)).2 B cp hmem
          · exact ih _ _ ((runBatch_checkpoint_sound exec maxRetries _ _ _
              (foldl_setAdd_nodup _ _ hnd)).1) B cp hmem

/-- C2: every checkpoint the main loop persists is the per-batch
checkpoint written only after the whole batch has been reconciled: the
persisted data records each task of the owning batch as completed or
failed and the persisted `inProgressTasks` set has been cleared of
every task of the batch; moreover at the end of a batch every batch
task's node in the graph has a terminal (completed/failed) status. -/
theorem checkpoint_after_batch :
    (∀ (exec : String → ℕ → ExecOutcome) (maxRetries maxParallel fuel : ℕ)
        (st : ExecutionState) (g : TaskGraph),
        st.inProgressTasks.Nodup →
        ∀ B cp, LoopEvent.checkpoint B cp
            ∈ (execLoop exec maxRetries maxParallel fuel st g).2.2 →
          ∀ tid ∈ B, (tid ∈ cp.completedTasks ∨ tid ∈ cp.failedTasks.map Prod.fst)
            ∧ tid ∉ cp.inProgressTasks)
      ∧ (∀ (exec : String → ℕ → ExecOutcome) (maxRetries : ℕ) (st : ExecutionState)
          (g : TaskGraph) (batchTasks : List Task),
          st.inProgressTasks.Nodup →
          (∀ t ∈ batchTasks, (statusOf g t.id).isSome) →
          ∀ t ∈ batchTasks,
            statusOf (runBatch exec maxRetries st g batchTasks).2.1 t.id = some .completed
              ∨ statusOf (runBatch exec maxRetries st g batchTasks).2.1 t.id
                  = some .failed) := by
  constructor
  · intro exec maxRetries maxParallel fuel
    exact execLoop_checkpoints exec maxRetries maxParallel fuel
  · intro exec maxRetries st g batchTasks hnd hex
    exact runBatch_statuses exec maxRetries st g batchTasks hnd hex

/-- Witness for C2: both conjuncts applied to the two-task run with the
always-succeeding executor, hypotheses discharged concretely. -/
theorem checkpoint_after_batch_witness :
    stEmpty.inProgressTasks.Nodup
      ∧ (∀ B cp, LoopEvent.checkpoint B cp ∈ runT12.2.2 →
          ∀ tid ∈ B, (tid ∈ cp.completedTasks ∨ tid ∈ cp.failedTasks.map Prod.fst)
            ∧ tid ∉ cp.inProgressTasks)
      ∧ (∀ t ∈ [taskT1, taskT2], (statusOf gT12 t.id).isSome)
      ∧ (∀ t ∈ [taskT1, taskT2],
          statusOf (runBatch execAlwaysOk 3 stEmpty gT12 [taskT1, taskT2]).2.1 t.id
              = some TStatus.completed
            ∨ statusOf (runBatch execAlwaysOk 3 stEmpty gT12 [taskT1, taskT2]).2.1 t.id
              = some TStatus.failed) :=
  ⟨by decide,
    checkpoint_after_batch.1 execAlwaysOk 3 2 3 stEmpty gT12 (by decide),
    by decide,
    checkpoint_after_batch.2 execAlwaysOk 3 stEmpty gT12 [taskT1, taskT2] (by decide)
      (by decide)⟩

end LoopLemmas

section TopoLemmas

theorem mapGet_mem {α : Type} (m : List (String × α)) (k : String) (v : α)
    (h : mapGet m k = some v) : (k, v) ∈ m := by
  unfold mapGet at h
  cases hf : m.find? (fun p => p.1 == k) with
  | none =>
      rw [hf] at h
      simp at h
  | some p =>
      rw [hf] at h
      simp only [Option.map_some'] at h
      injection h with h2
      have hpk : p.1 = k := by simpa using List.find?_some hf
      have hpm := List.mem_of_find?_eq_some hf
      have hkv : (k, v) = p := by
        cases p with
        | mk a b =>
            simp only at hpk h2
            simp [hpk, h2]
      rw [hkv]
      exact hpm

theorem mapGet_of_mem_nodup {α : Type} (m : List (String × α)) (k : String) (v : α)
    (hnd : (m.map Prod.fst).Nodup) (h : (k, v) ∈ m) : mapGet m k = some v := by
  induction m with
  | nil => simp at h
  | cons p rest ih =>
      simp only [List.map_cons, List.nodup_cons] at hnd
      rcases List.mem_cons.mp h with heq | hmem
      · rw [← heq, mapGet_cons]
        simp
      · have hk : p.1 ≠ k := by
          intro hcontra
          apply hnd.1
          rw [hcontra]
          exact List.mem_map_of_mem Prod.fst hmem
        rw [mapGet_cons, if_neg hk]
        exact ih hnd.2 hmem

theorem mapGet_isSome_of_mem_keys {α : Type} (m : List (String × α)) (k : String)
    (h : k ∈ m.map Prod.fst) : ∃ v, mapGet m k = some v := by
  induction m with
  | nil => simp at h
  | cons p rest ih =>
      rw [mapGet_cons]
      by_cases hk : p.1 = k
      · rw [if_pos hk]
        exact ⟨p.2, rfl⟩
      · rw [if_neg hk]
        apply ih
        simp only [List.map_cons, List.mem_cons] at h
        rcases h with h | h
        · exact absurd h.symm hk
        · exact h

theorem mem_keys_of_mapGet {α : Type} (m : List (String × α)) (k : String) (v : α)
    (h : mapGet m k = some v) : k ∈ m.map Prod.fst := by
  simpa using List.mem_map_of_mem Prod.fst (mapGet_mem m k v h)

theorem mapGet_init_inDeg (N : List (String × TaskNode)) (a : String) (na : TaskNode)
    (h : mapGet N a = some na) :
    mapGet (N.map (fun p => (p.1, (p.2.dependencies.length : ℤ)))) a
      = some ((na.dependencies.length : ℤ)) := by
  induction N with
  | nil => simp [mapGet] at h
  | cons p rest ih =>
      rw [mapGet_cons] at h
      rw [List.map_cons, mapGet_cons]
      by_cases hk : p.1 = a
      · rw [if_pos hk] at h
        rw [if_pos hk]
        injection h with h2
        rw [h2]
      · rw [if_neg hk] at h
        rw [if_neg hk]
        exact ih h

theorem metCount_le (deps res : List String) : metCount deps res ≤ deps.length :=
  List.length_filter_le _ deps

theorem metCount_all (deps res : List String) (h : metCount deps res = deps.length) :
    ∀ b ∈ deps, b ∈ res := by
  intro b hb
  have hfe : deps.filter (fun b => decide (b ∈ res)) = deps :=
    (List.filter_sublist deps).eq_of_length h
  have hb2 : b ∈ deps.filter (fun b => decide (b ∈ res)) := by
    rw [hfe]
    exact hb
  simpa using (List.mem_filter.mp hb2).2

theorem metCount_lt (deps res : List String) (b : String) (hb : b ∈ deps) (hbr : b ∉ res) :
    metCount deps res < deps.length := by
  rcases Nat.lt_or_ge (metCount deps res) deps.length with h | h
  · exact h
  · have heq : metCount deps res = deps.length := le_antisymm (metCount_le deps res) h
    exact absurd (metCount_all deps res heq b hb) hbr

theorem metCount_exists_unmet (deps res : List String)
    (h : metCount deps res < deps.length) : ∃ b ∈ deps, b ∉ res := by
  by_contra hc
  push_neg at hc
  have hfe : deps.filter (fun b => decide (b ∈ res)) = deps :=
    List.filter_eq_self.mpr (fun b hb => by simpa using hc b hb)
  rw [metCount, hfe] at h
  omega

theorem metCount_nil (deps : List String) : metCount deps [] = 0 := by
  simp [metCount]

theorem metCount_append_one (deps res : List String) (x : String)
    (hnd : deps.Nodup) (hx : x ∉ res) :
    metCount deps (res ++ [x]) = metCount deps res + (if x ∈ deps then 1 else 0) := by
  induction deps with
  | nil => simp [metCount]
  | cons a rest ih =>
      have hnd' := List.nodup_cons.mp hnd
      simp only [metCount, List.filter_cons] at ih ⊢
      by_cases har : a ∈ res
      · rw [if_pos (by simp [har] : decide (a ∈ res ++ [x]) = true),
          if_pos (by simpa using har : decide (a ∈ res) = true)]
        simp only [List.length_cons]
        rw [ih hnd'.2]
        have hax : a ≠ x := fun he => hx (he ▸ har)
        have hco : (if x ∈ a :: rest then 1 else 0) = (if x ∈ rest then 1 else 0) := by
          by_cases hxr : x ∈ rest
          · rw [if_pos hxr, if_pos (List.mem_cons_of_mem a hxr)]
          · rw [if_neg hxr, if_neg (by
              intro hm
              rcases List.mem_cons.mp hm with he | hm2
              · exact hax he.symm
              · exact hxr hm2)]
        rw [hco]
        omega
      · by_cases hax : a = x
        · rw [if_pos (by simp [hax] : decide (a ∈ res ++ [x]) = true),
            if_neg (by simpa using har : ¬ decide (a ∈ res) = true)]
          simp only [List.length_cons]
          have hxrest : x ∉ rest := fun hm => hnd'.1 (hax ▸ hm)
          rw [ih hnd'.2, if_neg hxrest, if_pos (by rw [hax]; exact List.mem_cons_self x rest)]
        · rw [if_neg (by simp [har, hax] : ¬ decide (a ∈ res ++ [x]) = true),
            if_neg (by simpa using har : ¬ decide (a ∈ res) = true)]
          rw [ih hnd'.2]
          have hco : (if x ∈ a :: rest then 1 else 0) = (if x ∈ rest then 1 else 0) := by
            by_cases hxr : x ∈ rest
            · rw [if_pos hxr, if_pos (List.mem_cons_of_mem a hxr)]
            · rw [if_neg hxr, if_neg (by
                intro hm
                rcases List.mem_cons.mp hm with he | hm2
                · exact hax he.symm
                · exact hxr hm2)]
          rw [hco]

theorem indexOf_lt_of_mem_take (l : List String) (b : String) :
    ∀ i, b ∈ l.take i → l.indexOf b < i := by
  induction l with
  | nil =>
      intro i h
      simp at h
  | cons x xs ih =>
      intro i h
      cases i with
      | zero => simp at h
      | succ j =>
          rw [List.take_succ_cons] at h
          by_cases hbx : b = x
          · subst hbx
            rw [List.indexOf_cons_self]
            omega
          · rcases List.mem_cons.mp h with he | hm
            · exact absurd he hbx
            · rw [List.indexOf_cons_ne _ (fun he => hbx he.symm)]
              have := ih j hm
              omega

theorem edgeOrder_nil (g : TaskGraph) : EdgeOrder g [] := by
  intro i hi
  simp at hi

theorem EdgeOrder.push (g : TaskGraph) (l : List String) (x : String)
    (h : EdgeOrder g l)
    (hx : ∀ nx, mapGet g.nodes x = some nx → ∀ b ∈ nx.dependencies, b ∈ l) :
    EdgeOrder g (l ++ [x]) := by
  intro i hi na hna b hb
  have hlen : i < l.length + 1 := by simpa using hi
  by_cases hil : i < l.length
  · have hget : (l ++ [x]).get ⟨i, hi⟩ = l.get ⟨i, hil⟩ := by
      rw [List.get_append]
    rw [hget] at hna
    have hbt := h i hil na hna b hb
    rw [List.take_append_of_le_length (le_of_lt hil)]
    exact hbt
  · have hieq : i = l.length := by omega
    subst hieq
    have hget : (l ++ [x]).get ⟨l.length, hi⟩ = x := by simp
    rw [hget] at hna
    have hbl := hx na hna b hb
    rw [List.take_append_of_le_length (le_refl _), List.take_length]
    exact hbl

theorem wf_keys_nodup (g : TaskGraph) (hwf : WfGraph g) : (g.nodes.map Prod.fst).Nodup := by
  unfold WfGraph at hwf
  exact hwf.1

theorem wf_deps_nodup (g : TaskGraph) (hwf : WfGraph g) (a : String) (na : TaskNode)
    (hna : mapGet g.nodes a = some na) : na.dependencies.Nodup := by
  unfold WfGraph at hwf
  exact hwf.2.1 (a, na) (mapGet_mem g.nodes a na hna)

theorem wf_depts_nodup (g : TaskGraph) (hwf : WfGraph g) (a : String) (na : TaskNode)
    (hna : mapGet g.nodes a = some na) : na.dependents.Nodup := by
  unfold WfGraph at hwf
  exact hwf.2.2.1 (a, na) (mapGet_mem g.nodes a na hna)

theorem wf_dep_edge (g : TaskGraph) (hwf : WfGraph g) (a : String) (na : TaskNode)
    (hna : mapGet g.nodes a = some na) (b : String) (hb : b ∈ na.dependencies) :
    ∃ nb, mapGet g.nodes b = some nb ∧ a ∈ nb.dependents := by
  have hkeys := wf_keys_nodup g hwf
  unfold WfGraph at hwf
  obtain ⟨q, hqN, hq1, hqdep⟩ := hwf.2.2.2.1 (a, na) (mapGet_mem g.nodes a na hna) b hb
  refine ⟨q.2, ?_, hqdep⟩
  have hget := mapGet_of_mem_nodup g.nodes q.1 q.2 hkeys hqN
  rw [← hq1]
  exact hget

theorem wf_dept_edge (g : TaskGraph) (hwf : WfGraph g) (a : String) (na : TaskNode)
    (hna : mapGet g.nodes a = some na) (d : String) (hd : d ∈ na.dependents) :
    ∃ nd, mapGet g.nodes d = some nd ∧ a ∈ nd.dependencies := by
  have hkeys := wf_keys_nodup g hwf
  unfold WfGraph at hwf
  obtain ⟨q, hqN, hq1, hqdep⟩ := hwf.2.2.2.2 (a, na) (mapGet_mem g.nodes a na hna) d hd
  refine ⟨q.2, ?_, hqdep⟩
  have hget := mapGet_of_mem_nodup g.nodes q.1 q.2 hkeys hqN
  rw [← hq1]
  exact hget

theorem wf_edge_iff (g : TaskGraph) (hwf : WfGraph g) (a : String) (na : TaskNode)
    (hna : mapGet g.nodes a = some na) (c : String) (nc : TaskNode)
    (hnc : mapGet g.nodes c = some nc) :
    c ∈ na.dependencies ↔ a ∈ nc.dependents := by
  constructor
  · intro h
    obtain ⟨nb, hnb, hmem⟩ := wf_dep_edge g hwf a na hna c h
    rw [hnc] at hnb
    injection hnb with he
    rw [he]
    exact hmem
  · intro h
    obtain ⟨nd, hnd, hmem⟩ := wf_dept_edge g hwf c nc hnc a h
    rw [hna] at hnd
    injection hnd with he
    rw [he]
    exact hmem

/-- A strictly dependency-decreasing rank function certifies
acyclicity. -/
theorem acyclic_of_rank (g : TaskGraph) (rank : String → ℕ)
    (hr : ∀ p ∈ g.nodes, ∀ b ∈ p.2.dependencies, rank b < rank p.1) :
    Acyclic g := by
  refine Subrelation.wf ?_ (InvImage.wf rank Nat.lt_wfRel.wf)
  intro b a hdep
  obtain ⟨na, hna, hb⟩ := hdep
  exact hr (a, na) (mapGet_mem g.nodes a na hna) b hb

theorem topoLoop_nil_queue (g : TaskGraph) (fuel : ℕ) (inDeg : List (String × ℤ))
    (result : List String) : topoLoop g fuel inDeg [] result = result := by
  cases fuel <;> rfl

theorem topoLoop_zero_cons (g : TaskGraph) (inDeg : List (String × ℤ)) (x : String)
    (qs result : List String) : topoLoop g 0 inDeg (x :: qs) result = result := rfl

theorem topoLoop_succ_cons (g : TaskGraph) (fuel : ℕ) (inDeg : List (String × ℤ))
    (nodeId : String) (queue result : List String) :
    topoLoop g (fuel + 1) inDeg (nodeId :: queue) result =
      match mapGet g.nodes nodeId with
      | none => topoLoop g fuel inDeg queue (result ++ [nodeId])
      | some node =>
          topoLoop g fuel
            (node.dependents.foldl
              (fun (p : List (String × ℤ) × List String) dependentId =>
                let newDegree := ((mapGet p.1 dependentId).getD 0) - 1
                let inDeg2 := mapSet p.1 dependentId newDegree
                if newDegree == 0 then (inDeg2, p.2 ++ [dependentId]) else (inDeg2, p.2))
              (inDeg, queue)).1
            (node.dependents.foldl
              (fun (p : List (String × ℤ) × List String) dependentId =>
                let newDegree := ((mapGet p.1 dependentId).getD 0) - 1
                let inDeg2 := mapSet p.1 dependentId newDegree
                if newDegree == 0 then (inDeg2, p.2 ++ [dependentId]) else (inDeg2, p.2))
              (inDeg, queue)).2
            (result ++ [nodeId]) := rfl

/-- When the queue is empty every key has been emitted: an unfinished
key would start an infinite chain of unmet dependencies, contradicting
acyclicity. -/
theorem topo_done (g : TaskGraph) (hwf : WfGraph g) (hacy : Acyclic g) (result : List String)
    (hD : ∀ a ∈ g.nodes.map Prod.fst, a ∉ result →
      ∀ na, mapGet g.nodes a = some na → ∃ b ∈ na.dependencies, b ∉ result) :
    ∀ a ∈ g.nodes.map Prod.fst, a ∈ result := by
  intro a ha
  by_contra hnot
  obtain ⟨m, hm, hmin⟩ := hacy.has_min
    {x | x ∈ g.nodes.map Prod.fst ∧ x ∉ result} ⟨a, ha, hnot⟩
  obtain ⟨hmk, hmr⟩ := hm
  obtain ⟨nm, hnm⟩ := mapGet_isSome_of_mem_keys g.nodes m hmk
  obtain ⟨b, hb, hbr⟩ := hD m hmk hmr nm hnm
  obtain ⟨nb, hnb, -⟩ := wf_dep_edge g hwf m nm hnm b hb
  exact hmin b ⟨mem_keys_of_mapGet g.nodes b nb hnb, hbr⟩ ⟨nm, hnm, hb⟩

end TopoLemmas


section TopoFold

/-- Invariant of the dependent-decrement fold inside `topoLoop`: after
the remaining suffix `suf` of `node.dependents` is processed, every
node's in-degree entry counts its dependencies unmet by
`result ++ [nodeId]`, the queue has only grown by newly ready nodes,
and every processed-but-unqueued dependent still has an unmet
dependency. -/
theorem topoFold_inv (g : TaskGraph) (hwf : WfGraph g) (nodeId : String) (node : TaskNode)
    (hnode : mapGet g.nodes nodeId = some node)
    (result qs : List String)
    (hG : ∀ a ∈ result, ∀ na, mapGet g.nodes a = some na → ∀ b ∈ na.dependencies, b ∈ result)
    (hEnode : ∀ b ∈ node.dependencies, b ∈ result)
    (hnid : nodeId ∉ result)
    (hqsE : ∀ x ∈ qs, ∀ nx, mapGet g.nodes x = some nx →
      ∀ b ∈ nx.dependencies, b ∈ result) :
    ∀ (suf : List String) (inDegM : List (String × ℤ)) (queueM : List String),
      (∀ d ∈ suf, d ∈ node.dependents) →
      suf.Nodup →
      (∀ a na, mapGet g.nodes a = some na →
        mapGet inDegM a = some ((na.dependencies.length : ℤ)
          - (metCount na.dependencies result : ℤ)
          - (if a ∈ node.dependents ∧ a ∉ suf then 1 else 0))) →
      queueM.Nodup →
      (∀ x ∈ queueM, x ∉ result ∧ x ≠ nodeId) →
      (∀ x ∈ queueM, x ∈ g.nodes.map Prod.fst) →
      (∀ x ∈ queueM, ∀ nx, mapGet g.nodes x = some nx →
        ∀ b ∈ nx.dependencies, b ∈ result ++ [nodeId]) →
      (∀ x ∈ qs, x ∈ queueM) →
      (∀ x ∈ queueM, x ∈ qs ∨ (x ∈ node.dependents ∧ x ∉ suf)) →
      (∀ x ∈ node.dependents, x ∉ suf → x ∉ queueM → ∀ nx, mapGet g.nodes x = some nx →
        metCount nx.dependencies (result ++ [nodeId]) < nx.dependencies.length) →
      ∀ q, q = suf.foldl (fun (p : List (String × ℤ) × List String) dependentId =>
          let newDegree := ((mapGet p.1 dependentId).getD 0) - 1
          let inDeg2 := mapSet p.1 dependentId newDegree
          if newDegree == 0 then (inDeg2, p.2 ++ [dependentId]) else (inDeg2, p.2))
        (inDegM, queueM) →
      ((∀ a na, mapGet g.nodes a = some na →
          mapGet q.1 a = some ((na.dependencies.length : ℤ)
            - (metCount na.dependencies result : ℤ)
            - (if a ∈ node.dependents then 1 else 0)))
        ∧ q.2.Nodup
        ∧ (∀ x ∈ q.2, x ∉ result ∧ x ≠ nodeId)
        ∧ (∀ x ∈ q.2, x ∈ g.nodes.map Prod.fst)
        ∧ (∀ x ∈ q.2, ∀ nx, mapGet g.nodes x = some nx →
            ∀ b ∈ nx.dependencies, b ∈ result ++ [nodeId])
        ∧ (∀ x ∈ qs, x ∈ q.2)
        ∧ (∀ x ∈ node.dependents, x ∉ q.2 → ∀ nx, mapGet g.nodes x = some nx →
            metCount nx.dependencies (result ++ [nodeId]) < nx.dependencies.length)) := by
  intro suf
  induction suf with
  | nil =>
      intro inDegM queueM hsub hsnd hC hq1 hq2 hq3 hq4 hq5 hq6 hq7 q hq
      subst hq
      rw [List.foldl_nil]
      refine ⟨?_, hq1, hq2, hq3, hq4, hq5, ?_⟩
      · intro a na hna
        have hv := hC a na hna
        simp only [List.not_mem_nil, not_false_iff, and_true] at hv
        exact hv
      · intro x hx hnq nx hnx
        exact hq7 x hx (by simp) hnq nx hnx
  | cons d suf' ih =>
      intro inDegM queueM hsub hsnd hC hq1 hq2 hq3 hq4 hq5 hq6 hq7 q hq
      rw [List.foldl_cons] at hq
      have hdds : d ∈ node.dependents := hsub d (List.mem_cons_self d suf')
      have hdns' : d ∉ suf' := (List.nodup_cons.mp hsnd).1
      obtain ⟨nd, hnd, hnin⟩ := wf_dept_edge g hwf nodeId node hnode d hdds
      have hval := hC d nd hnd
      rw [if_neg (fun hcc => hcc.2 (List.mem_cons_self d suf')), sub_zero] at hval
      have hdnodup : nd.dependencies.Nodup := wf_deps_nodup g hwf d nd hnd
      have hmet1 : metCount nd.dependencies (result ++ [nodeId])
          = metCount nd.dependencies result + 1 := by
        rw [metCount_append_one nd.dependencies result nodeId hdnodup hnid, if_pos hnin]
      have hmetlt : metCount nd.dependencies result < nd.dependencies.length :=
        metCount_lt nd.dependencies result nodeId hnin hnid
      have hstepval : ((mapGet inDegM d).getD 0) - 1
          = (nd.dependencies.length : ℤ) - (metCount nd.dependencies result : ℤ) - 1 := by
        rw [hval, Option.getD_some]
      have hdnres : d ∉ result := by
        intro hmem
        exact hnid (hG d hmem nd hnd nodeId hnin)
      have hdnid : d ≠ nodeId := by
        intro he
        subst he
        rw [hnode] at hnd
        injection hnd with he2
        subst he2
        exact hnid (hEnode d hnin)
      have hdnq : d ∉ queueM := by
        intro hmem
        rcases hq6 d hmem with hmqs | ⟨-, hns⟩
        · exact hnid (hqsE d hmqs nd hnd nodeId hnin)
        · exact hns (List.mem_cons_self d suf')
      have hsub' : ∀ x ∈ suf', x ∈ node.dependents :=
        fun x hx => hsub x (List.mem_cons_of_mem d hx)
      have hC' : ∀ a na, mapGet g.nodes a = some na →
          mapGet (mapSet inDegM d (((mapGet inDegM d).getD 0) - 1)) a
            = some ((na.dependencies.length : ℤ)
              - (metCount na.dependencies result : ℤ)
              - (if a ∈ node.dependents ∧ a ∉ suf' then 1 else 0)) := by
        intro a na hna
        by_cases had : a = d
        · subst had
          rw [mapGet_mapSet_self]
          rw [hnd] at hna
          injection hna with he
          subst he
          rw [hstepval, if_pos ⟨hdds, hdns'⟩]
        · rw [mapGet_mapSet_ne inDegM d a (((mapGet inDegM d).getD 0) - 1) had]
          have hv := hC a na hna
          have hcond : (a ∈ node.dependents ∧ a ∉ d :: suf')
              ↔ (a ∈ node.dependents ∧ a ∉ suf') := by
            constructor
            · rintro ⟨h1, h2⟩
              exact ⟨h1, fun hm => h2 (List.mem_cons_of_mem d hm)⟩
            · rintro ⟨h1, h2⟩
              refine ⟨h1, fun hm => ?_⟩
              rcases List.mem_cons.mp hm with he | hm2
              · exact had he
              · exact h2 hm2
          simp only [hcond] at hv
          exact hv
      by_cases hz : ((mapGet inDegM d).getD 0) - 1 = 0
      · have hqe : q = suf'.foldl (fun (p : List (String × ℤ) × List String) dependentId =>
            let newDegree := ((mapGet p.1 dependentId).getD 0) - 1
            let inDeg2 := mapSet p.1 dependentId newDegree
            if newDegree == 0 then (inDeg2, p.2 ++ [dependentId]) else (inDeg2, p.2))
            (mapSet inDegM d (((mapGet inDegM d).getD 0) - 1), queueM ++ [d]) := by
          rw [hq]
          congr 1
          dsimp only
          rw [if_pos (by simpa using hz)]
        clear hq
        have hall : metCount nd.dependencies (result ++ [nodeId]) = nd.dependencies.length := by
          rw [hmet1]
          rw [hstepval] at hz
          omega
        refine ih (mapSet inDegM d (((mapGet inDegM d).getD 0) - 1)) (queueM ++ [d])
          hsub' (List.nodup_cons.mp hsnd).2 hC' ?_ ?_ ?_ ?_ ?_ ?_ ?_ q hqe
        · rw [List.nodup_append]
          refine ⟨hq1, List.nodup_singleton d, ?_⟩
          intro x hx hx2
          rw [List.mem_singleton] at hx2
          subst hx2
          exact hdnq hx
        · intro x hx
          rcases List.mem_append.mp hx with hx | hx
          · exact hq2 x hx
          · rw [List.mem_singleton] at hx
            subst hx
            exact ⟨hdnres, hdnid⟩
        · intro x hx
          rcases List.mem_append.mp hx with hx | hx
          · exact hq3 x hx
          · rw [List.mem_singleton] at hx
            subst hx
            exact mem_keys_of_mapGet g.nodes x nd hnd
        · intro x hx nx hnx
          rcases List.mem_append.mp hx with hx | hx
          · exact hq4 x hx nx hnx
          · rw [List.mem_singleton] at hx
            subst hx
            rw [hnd] at hnx
            injection hnx with he
            subst he
            exact metCount_all nd.dependencies (result ++ [nodeId]) hall
        · intro x hx
          exact List.mem_append_left _ (hq5 x hx)
        · intro x hx
          rcases List.mem_append.mp hx with hx | hx
          · rcases hq6 x hx with h | ⟨h1, h2⟩
            · exact Or.inl h
            · exact Or.inr ⟨h1, fun hm => h2 (List.mem_cons_of_mem d hm)⟩
          · rw [List.mem_singleton] at hx
            subst hx
            exact Or.inr ⟨hdds, hdns'⟩
        · intro x hx hxs hxq nx hnx
          have hxd : x ≠ d := by
            intro he
            subst he
            exact hxq (List.mem_append_right _ (List.mem_singleton.mpr rfl))
          refine hq7 x hx ?_ ?_ nx hnx
          · intro hm
            rcases List.mem_cons.mp hm with he | hm2
            · exact hxd he
            · exact hxs hm2
          · intro hm
            exact hxq (List.mem_append_left _ hm)
      · have hqe : q = suf'.foldl (fun (p : List (String × ℤ) × List String) dependentId =>
            let newDegree := ((mapGet p.1 dependentId).getD 0) - 1
            let inDeg2 := mapSet p.1 dependentId newDegree
            if newDegree == 0 then (inDeg2, p.2 ++ [dependentId]) else (inDeg2, p.2))
            (mapSet inDegM d (((mapGet inDegM d).getD 0) - 1), queueM) := by
          rw [hq]
          congr 1
          dsimp only
          rw [if_neg (by simpa using hz)]
        clear hq
        refine ih (mapSet inDegM d (((mapGet inDegM d).getD 0) - 1)) queueM
          hsub' (List.nodup_cons.mp hsnd).2 hC' hq1 hq2 hq3 hq4 hq5 ?_ ?_ q hqe
        · intro x hx
          rcases hq6 x hx with h | ⟨h1, h2⟩
          · exact Or.inl h
          · exact Or.inr ⟨h1, fun hm => h2 (List.mem_cons_of_mem d hm)⟩
        · intro x hx hxs hxq nx hnx
          by_cases hxd : x = d
          · subst hxd
            rw [hnd] at hnx
            injection hnx with he
            subst he
            rw [hmet1]
            rw [hstepval] at hz
            omega
          · refine hq7 x hx ?_ hxq nx hnx
            intro hm
            rcases List.mem_cons.mp hm with he | hm2
            · exact hxd he
            · exact hxs hm2

end TopoFold


section TopoMain

/-- Closing the loop with an empty queue: the accumulated result is the
final output, and acyclicity forces it to contain every key. -/
theorem topo_finish (g : TaskGraph) (hwf : WfGraph g) (hacy : Acyclic g)
    (fuel : ℕ) (inDeg : List (String × ℤ)) (result : List String)
    (hrnd : result.Nodup)
    (hrk : ∀ x ∈ result, x ∈ g.nodes.map Prod.fst)
    (hD0 : ∀ a ∈ g.nodes.map Prod.fst, a ∉ result →
      ∀ na, mapGet g.nodes a = some na → ∃ b ∈ na.dependencies, b ∉ result)
    (hEO : EdgeOrder g result) :
    (topoLoop g fuel inDeg [] result).Nodup
      ∧ (∀ x ∈ topoLoop g fuel inDeg [] result, x ∈ g.nodes.map Prod.fst)
      ∧ (∀ a ∈ g.nodes.map Prod.fst, a ∈ topoLoop g fuel inDeg [] result)
      ∧ EdgeOrder g (topoLoop g fuel inDeg [] result) := by
  rw [topoLoop_nil_queue]
  exact ⟨hrnd, hrk, topo_done g hwf hacy result hD0, hEO⟩

/-- Main invariant proof of the Kahn queue loop. -/
theorem topoLoop_spec (g : TaskGraph) (hwf : WfGraph g) (hacy : Acyclic g) :
    ∀ (fuel : ℕ) (inDeg : List (String × ℤ)) (queue result : List String),
      result.Nodup →
      queue.Nodup →
      (∀ x ∈ queue, x ∉ result) →
      (∀ x ∈ result, x ∈ g.nodes.map Prod.fst) →
      (∀ x ∈ queue, x ∈ g.nodes.map Prod.fst) →
      (∀ a na, mapGet g.nodes a = some na →
        mapGet inDeg a = some ((na.dependencies.length : ℤ)
          - (metCount na.dependencies result : ℤ))) →
      (∀ a ∈ g.nodes.map Prod.fst, a ∉ result → a ∉ queue →
        ∀ na, mapGet g.nodes a = some na →
          ∃ b ∈ na.dependencies, b ∉ result) →
      (∀ x ∈ queue, ∀ nx, mapGet g.nodes x = some nx →
        ∀ b ∈ nx.dependencies, b ∈ result) →
      (∀ a ∈ result, ∀ na, mapGet g.nodes a = some na →
        ∀ b ∈ na.dependencies, b ∈ result) →
      EdgeOrder g result →
      g.nodes.length + 1 ≤ result.length + fuel →
      ((topoLoop g fuel inDeg queue result).Nodup
        ∧ (∀ x ∈ topoLoop g fuel inDeg queue result, x ∈ g.nodes.map Prod.fst)
        ∧ (∀ a ∈ g.nodes.map Prod.fst, a ∈ topoLoop g fuel inDeg queue result)
        ∧ EdgeOrder g (topoLoop g fuel inDeg queue result)) := by
  intro fuel
  induction fuel with
  | zero =>
      intro inDeg queue result hrnd hqnd hdisj hrk hqk hC hD hE hG hEO hfuel
      cases queue with
      | nil =>
          exact topo_finish g hwf hacy 0 inDeg result hrnd hrk
            (fun a hak hnr na hna => hD a hak hnr (by simp) na hna) hEO
      | cons x qs =>
          exfalso
          have hlen : result.length ≤ (g.nodes.map Prod.fst).length :=
            (List.subperm_of_subset hrnd (fun y hy => hrk y hy)).length_le
          rw [List.length_map] at hlen
          omega
  | succ fuel ih =>
      intro inDeg queue result hrnd hqnd hdisj hrk hqk hC hD hE hG hEO hfuel
      cases queue with
      | nil =>
          exact topo_finish g hwf hacy (fuel + 1) inDeg result hrnd hrk
            (fun a hak hnr na hna => hD a hak hnr (by simp) na hna) hEO
      | cons nodeId qs =>
          have hnidk : nodeId ∈ g.nodes.map Prod.fst :=
            hqk nodeId (List.mem_cons_self nodeId qs)
          obtain ⟨node, hnode⟩ := mapGet_isSome_of_mem_keys g.nodes nodeId hnidk
          rw [topoLoop_succ_cons]
          simp only [hnode]
          have hnidnr : nodeId ∉ result := hdisj nodeId (List.mem_cons_self nodeId qs)
          have hqsnd : qs.Nodup := (List.nodup_cons.mp hqnd).2
          have hnidnqs : nodeId ∉ qs := (List.nodup_cons.mp hqnd).1
          have hEnode : ∀ b ∈ node.dependencies, b ∈ result :=
            hE nodeId (List.mem_cons_self nodeId qs) node hnode
          obtain ⟨FC, Fq1, Fq2, Fq3, Fq4, Fq5, Fq7⟩ :=
            topoFold_inv g hwf nodeId node hnode result qs
              hG hEnode hnidnr
              (fun x hx nx hnx b hb => hE x (List.mem_cons_of_mem nodeId hx) nx hnx b hb)
              node.dependents inDeg qs
              (fun d hd => hd)
              (wf_depts_nodup g hwf nodeId node hnode)
              (fun a na hna => by
                have hv := hC a na hna
                rw [if_neg (fun hcc => hcc.2 hcc.1), sub_zero]
                exact hv)
              hqsnd
              (fun x hx => ⟨hdisj x (List.mem_cons_of_mem nodeId hx),
                fun he => hnidnqs (he ▸ hx)⟩)
              (fun x hx => hqk x (List.mem_cons_of_mem nodeId hx))
              (fun x hx nx hnx b hb =>
                List.mem_append_left _ (hE x (List.mem_cons_of_mem nodeId hx) nx hnx b hb))
              (fun x hx => hx)
              (fun x hx => Or.inl hx)
              (fun x hx hns _hq => absurd hx hns)
              _ rfl
          refine ih _ _ (result ++ [nodeId]) ?_ Fq1 ?_ ?_ Fq3 ?_ ?_ Fq4 ?_ ?_ ?_
          · rw [List.nodup_append]
            refine ⟨hrnd, List.nodup_singleton nodeId, ?_⟩
            intro x hx hx2
            rw [List.mem_singleton] at hx2
            subst hx2
            exact hnidnr hx
          · intro x hx
            obtain ⟨hx1, hx2⟩ := Fq2 x hx
            intro hm
            rcases List.mem_append.mp hm with hm | hm
            · exact hx1 hm
            · rw [List.mem_singleton] at hm
              exact hx2 hm
          · intro x hx
            rcases List.mem_append.mp hx with hm | hm
            · exact hrk x hm
            · rw [List.mem_singleton] at hm
              subst hm
              exact hnidk
          · intro a na hna
            have hfc := FC a na hna
            have hdnodup : na.dependencies.Nodup := wf_deps_nodup g hwf a na hna
            by_cases had : a ∈ node.dependents
            · have hedge : nodeId ∈ na.dependencies :=
                (wf_edge_iff g hwf a na hna nodeId node hnode).mpr had
              have hmet : metCount na.dependencies (result ++ [nodeId])
                  = metCount na.dependencies result + 1 := by
                rw [metCount_append_one na.dependencies result nodeId hdnodup hnidnr,
                  if_pos hedge]
              rw [hfc, if_pos had, hmet]
              congr 1
              push_cast
              ring
            · have hedge : nodeId ∉ na.dependencies := fun hmem =>
                had ((wf_edge_iff g hwf a na hna nodeId node hnode).mp hmem)
              have hmet : metCount na.dependencies (result ++ [nodeId])
                  = metCount na.dependencies result := by
                rw [metCount_append_one na.dependencies result nodeId hdnodup hnidnr,
                  if_neg hedge]
                omega
              rw [hfc, if_neg had, hmet]
              congr 1
              ring
          · intro a hak hnr' hnq' na hna
            have hanr : a ∉ result := fun hm => hnr' (List.mem_append_left _ hm)
            have hanid : a ≠ nodeId := by
              intro he
              apply hnr'
              rw [he]
              exact List.mem_append_right _ (List.mem_singleton.mpr rfl)
            have hanqs : a ∉ qs := fun hm => hnq' (Fq5 a hm)
            have hanq : a ∉ nodeId :: qs := by
              intro hm
              rcases List.mem_cons.mp hm with he | hm2
              · exact hanid he
              · exact hanqs hm2
            obtain ⟨b, hb, hbnr⟩ := hD a hak hanr hanq na hna
            by_cases hbnid : b = nodeId
            · subst hbnid
              have had : a ∈ node.dependents :=
                (wf_edge_iff g hwf a na hna b node hnode).mp hb
              have hmlt := Fq7 a had hnq' na hna
              exact metCount_exists_unmet na.dependencies (result ++ [b]) hmlt
            · refine ⟨b, hb, ?_⟩
              intro hm
              rcases List.mem_append.mp hm with hm | hm
              · exact hbnr hm
              · rw [List.mem_singleton] at hm
                exact hbnid hm
          · intro x hx nx hnx b hb
            rcases List.mem_append.mp hx with hm | hm
            · exact List.mem_append_left _ (hG x hm nx hnx b hb)
            · rw [List.mem_singleton] at hm
              subst hm
              rw [hnode] at hnx
              injection hnx with he
              subst he
              exact List.mem_append_left _ (hEnode b hb)
          · refine EdgeOrder.push g result nodeId hEO ?_
            intro nx hnx b hb
            rw [hnode] at hnx
            injection hnx with he
            subst he
            exact hEnode b hb
          · simp only [List.length_append, List.length_singleton]
            omega

end TopoMain


/-- C6: on a well-formed acyclic dependency graph, `topologicalSort`
returns a permutation of all node ids in which every edge is respected:
each dependency id appears in the output strictly before every id that
depends on it. -/
theorem topologicalSort_spec (g : TaskGraph) (hwf : WfGraph g) (hacy : Acyclic g) :
    (topologicalSort g).Perm (g.nodes.map Prod.fst)
      ∧ ∀ a na, mapGet g.nodes a = some na →
          ∀ b ∈ na.dependencies,
            (topologicalSort g).indexOf b < (topologicalSort g).indexOf a := by
  have hkeys := wf_keys_nodup g hwf
  have hq0nd : ((g.nodes.filter (fun p => p.2.dependencies.length == 0)).map
      Prod.fst).Nodup :=
    ((List.filter_sublist g.nodes).map Prod.fst).nodup hkeys
  have hq0k : ∀ x ∈ (g.nodes.filter
      (fun p => p.2.dependencies.length == 0)).map Prod.fst,
      x ∈ g.nodes.map Prod.fst := by
    intro x hx
    obtain ⟨p, hpf, hpx⟩ := List.mem_map.mp hx
    rw [← hpx]
    exact List.mem_map_of_mem Prod.fst (List.mem_of_mem_filter hpf)
  have hE0 : ∀ x ∈ (g.nodes.filter
      (fun p => p.2.dependencies.length == 0)).map Prod.fst,
      ∀ nx, mapGet g.nodes x = some nx → ∀ b ∈ nx.dependencies, b ∈ ([] : List String) := by
    intro x hx nx hnx b hb
    obtain ⟨p, hpf, hpx⟩ := List.mem_map.mp hx
    obtain ⟨hpN, hp0⟩ := List.mem_filter.mp hpf
    have hgetp : mapGet g.nodes p.1 = some p.2 :=
      mapGet_of_mem_nodup g.nodes p.1 p.2 hkeys hpN
    rw [hpx, hnx] at hgetp
    injection hgetp with he
    rw [he] at hb
    have hlen : p.2.dependencies.length = 0 := by simpa using hp0
    rw [List.length_eq_zero.mp hlen] at hb
    simp at hb
  have hD0 : ∀ a ∈ g.nodes.map Prod.fst,
      a ∉ ([] : List String) →
      a ∉ (g.nodes.filter (fun p => p.2.dependencies.length == 0)).map Prod.fst →
      ∀ na, mapGet g.nodes a = some na →
        ∃ b ∈ na.dependencies, b ∉ ([] : List String) := by
    intro a _hak _hnr hnq na hna
    cases hdep : na.dependencies with
    | nil =>
        exfalso
        apply hnq
        refine List.mem_map.mpr ⟨(a, na), ?_, rfl⟩
        refine List.mem_filter.mpr ⟨mapGet_mem g.nodes a na hna, ?_⟩
        simp [hdep]
    | cons b rest =>
        exact ⟨b, List.mem_cons_self b rest, by simp⟩
  have hC0 : ∀ a na, mapGet g.nodes a = some na →
      mapGet (g.nodes.map (fun p => (p.1, (p.2.dependencies.length : ℤ)))) a
        = some ((na.dependencies.length : ℤ)
          - (metCount na.dependencies ([] : List String) : ℤ)) := by
    intro a na hna
    rw [metCount_nil, Nat.cast_zero, sub_zero]
    exact mapGet_init_inDeg g.nodes a na hna
  obtain ⟨hnd, hsub, hcompl, hEO⟩ := topoLoop_spec g hwf hacy (g.nodes.length + 1)
    (g.nodes.map (fun p => (p.1, (p.2.dependencies.length : ℤ))))
    ((g.nodes.filter (fun p => p.2.dependencies.length == 0)).map Prod.fst)
    []
    List.nodup_nil hq0nd (by simp) (by simp) hq0k hC0 hD0 hE0 (by simp)
    (edgeOrder_nil g) (by simp)
  have hout : topologicalSort g = topoLoop g (g.nodes.length + 1)
      (g.nodes.map (fun p => (p.1, (p.2.dependencies.length : ℤ))))
      ((g.nodes.filter (fun p => p.2.dependencies.length == 0)).map Prod.fst) [] := rfl
  rw [hout]
  constructor
  · refine (List.perm_ext_iff_of_nodup hnd hkeys).mpr ?_
    intro x
    exact ⟨fun h => hsub x h, fun h => hcompl x h⟩
  · intro a na hna b hb
    have haout : a ∈ topoLoop g (g.nodes.length + 1)
        (g.nodes.map (fun p => (p.1, (p.2.dependencies.length : ℤ))))
        ((g.nodes.filter (fun p => p.2.dependencies.length == 0)).map Prod.fst) [] :=
      hcompl a (mem_keys_of_mapGet g.nodes a na hna)
    have hia := List.indexOf_lt_length.mpr haout
    have hgeta := List.indexOf_get hia
    have hbt := hEO _ hia na (by rw [hgeta]; exact hna) b hb
    exact indexOf_lt_of_mem_take _ b _ hbt

/-- Witness for C6 on the chain `A → B → C`, with well-formedness
decided and acyclicity certified by a rank function. -/
theorem topologicalSort_spec_witness :
    WfGraph gChain
      ∧ (∀ p ∈ gChain.nodes, ∀ b ∈ p.2.dependencies, rankChain b < rankChain p.1)
      ∧ ((topologicalSort gChain).Perm (gChain.nodes.map Prod.fst)
          ∧ ∀ a na, mapGet gChain.nodes a = some na →
              ∀ b ∈ na.dependencies,
                (topologicalSort gChain).indexOf b < (topologicalSort gChain).indexOf a) :=
  ⟨by decide, by decide,
    topologicalSort_spec gChain (by decide)
      (acyclic_of_rank gChain rankChain (by decide))⟩


end CCB




